import Mathlib

/-!
Verification development for the batch orchestration and aggregation pipeline
of the code-analysis scripts (`analyze-codebase-azure.js` and the Gemini
variant).  The JavaScript functions are shallowly embedded as executable Lean
definitions: pure functions become Lean functions, the retry/parallel loops
become explicit recursions returning their observable traces, JavaScript
numbers are modelled as exact rationals, and `undefined`/missing fields are
modelled with `Option`.
-/

/-- A source file item as assembled by the scripts before batching:
`{ path, name, content }`. -/
structure SourceItem where
  path : String
  name : String
  content : String
deriving DecidableEq, Repr

/-- Embedding of `estimateTokens(text)`: `Math.ceil(text.length / 4)`. -/
def estimateTokens (text : String) : Nat :=
  (text.length + 3) / 4

/-- Loop of `createBatches`: carries the accumulated `batches`, the running
`currentBatch` and the running `currentTokenEstimate`, exactly as the
JavaScript `for (const file of fileContents)` loop does.  `batchSize` is the
maximum item count and `maxInputTokens` the token budget
(`CONFIG.MAX_INPUT_TOKENS` in the source). -/
def createBatchesGo (batchSize maxInputTokens : Nat) :
    List SourceItem → List (List SourceItem) → List SourceItem → Nat →
    List (List SourceItem)
  | [], batches, currentBatch, _ =>
    if currentBatch.length > 0 then batches ++ [currentBatch] else batches
  | file :: rest, batches, currentBatch, currentTokenEstimate =>
    let fileTokens := estimateTokens file.content
    if currentBatch.length ≥ batchSize ∨
        (currentTokenEstimate + fileTokens > maxInputTokens ∧
          currentBatch.length > 0) then
      createBatchesGo batchSize maxInputTokens rest (batches ++ [currentBatch])
        [file] fileTokens
    else
      createBatchesGo batchSize maxInputTokens rest batches
        (currentBatch ++ [file]) (currentTokenEstimate + fileTokens)

/-- Embedding of `createBatches(fileContents, batchSize)`, with the token
budget `CONFIG.MAX_INPUT_TOKENS` made an explicit parameter. -/
def createBatches (fileContents : List SourceItem)
    (batchSize maxInputTokens : Nat) : List (List SourceItem) :=
  createBatchesGo batchSize maxInputTokens fileContents [] [] 0

/-- An item whose estimate alone exceeds the budget is alone in its batch. -/
def aloneIfOversized (maxInputTokens : Nat) (b : List SourceItem) : Prop :=
  ∀ x ∈ b, maxInputTokens < estimateTokens x.content → b = [x]

/-- Observable trace of one `analyzeBatchWithRetry` run: its returned or
thrown value (`Except.error none` models the loop throwing the *undefined*
`lastError` when zero attempts ran), the number of times the submit function
was invoked, and the list of back-off waits performed, in order. -/
structure RetryTrace (E A : Type) where
  result : Except (Option E) A
  calls : Nat
  waits : List Nat
deriving Repr

/-- Loop body of `analyzeBatchWithRetry`: `attempt` is the 1-based attempt
counter, `remaining` the number of attempts still allowed (including the
current one).  On success the loop returns at once; on failure it records the
error and, when this was not the final attempt (`remaining > 1`, that is
`attempt < CONFIG.RETRY_ATTEMPTS`), sleeps
`RETRY_DELAY_MS * RETRY_BACKOFF ^ (attempt - 1)`. -/
def retryGo (submit : Nat → Except E A) (baseDelay backoff : Nat) :
    Nat → Nat → RetryTrace E A
  | _, 0 => ⟨Except.error none, 0, []⟩
  | attempt, remaining + 1 =>
    match submit attempt with
    | Except.ok v => ⟨Except.ok v, 1, []⟩
    | Except.error e =>
      let t := retryGo submit baseDelay backoff (attempt + 1) remaining
      let result := match t.result with
        | Except.error none => Except.error (some e)
        | r => r
      if remaining = 0 then ⟨result, t.calls + 1, t.waits⟩
      else ⟨result, t.calls + 1,
        baseDelay * backoff ^ (attempt - 1) :: t.waits⟩

/-- Embedding of `analyzeBatchWithRetry`, abstracted over the submit function
(`analyzeBatch` with its closed-over arguments in the source, indexed here by
the attempt number).  `retryAttempts`, `baseDelay`, `backoff` are
`CONFIG.RETRY_ATTEMPTS`, `CONFIG.RETRY_DELAY_MS`, `CONFIG.RETRY_BACKOFF`
(defaults 3, 1000, 2). -/
def analyzeBatchWithRetry (retryAttempts baseDelay backoff : Nat)
    (submit : Nat → Except E A) : RetryTrace E A :=
  retryGo submit baseDelay backoff 1 retryAttempts

/-- A failed batch entry as collected by `processBatchesInParallel`:
`{ batchNumber, error, files }` with `files` the item names of the batch. -/
structure BatchFailure (E : Type) where
  batchNumber : Nat
  error : E
  files : List String
deriving Repr

/-- Settlement of one wave (the `chunkResults.forEach` block): each batch in
the chunk, numbered from `n`, lands either in the success list or in the
failure list with its batch number, error and item names.  `outcome k` is the
settled result of `analyzeBatchWithRetry` for batch number `k` (each batch
either succeeds or exhausts its retries). -/
def processChunk (outcome : Nat → Except E R) :
    Nat → List (List SourceItem) → List R × List (BatchFailure E)
  | _, [] => ([], [])
  | n, batch :: rest =>
    let p := processChunk outcome (n + 1) rest
    match outcome n with
    | Except.ok r => (r :: p.1, p.2)
    | Except.error e => (p.1, ⟨n, e, batch.map SourceItem.name⟩ :: p.2)

/-- Wave loop of `processBatchesInParallel` (`for (let i = 0; ...; i +=
concurrency)`): slices off a chunk of `cPred + 1` batches (where `cPred + 1`
is the concurrency), settles it, and recurses on the remainder. -/
def processBatchesGo (outcome : Nat → Except E R) (cPred : Nat) :
    Nat → List (List SourceItem) → List R × List (BatchFailure E)
  | _, [] => ([], [])
  | n, b :: rest =>
    let chunk := b :: rest.take cPred
    let p := processChunk outcome n chunk
    let q := processBatchesGo outcome cPred (n + chunk.length) (rest.drop cPred)
    (p.1 ++ q.1, p.2 ++ q.2)
termination_by n l => l.length
decreasing_by
  simp only [List.length_cons, List.length_drop]
  omega

/-- Embedding of `processBatchesInParallel(batches, ..., concurrency)`.  With
`concurrency = 0` the JavaScript loop never advances `i`, so the call
diverges whenever `batches` is non-empty; this is modelled by `none`. -/
def processBatchesInParallel (batches : List (List SourceItem))
    (outcome : Nat → Except E R) (concurrency : Nat) :
    Option (List R × List (BatchFailure E)) :=
  if concurrency = 0 then
    if batches.isEmpty then some ([], []) else none
  else some (processBatchesGo outcome (concurrency - 1) 1 batches)

/-- Success selector for the partition characterisation. -/
def chunkOk (outcome : Nat → Except E R) (p : Nat × List SourceItem) :
    Option R :=
  (outcome p.1).toOption

/-- Failure selector for the partition characterisation. -/
def chunkErr (outcome : Nat → Except E R) (p : Nat × List SourceItem) :
    Option (BatchFailure E) :=
  match outcome p.1 with
  | Except.ok _ => none
  | Except.error e => some ⟨p.1, e, p.2.map SourceItem.name⟩

/-- Demonstration batches for the C6 witness: five one-item batches. -/
def demoBatches : List (List SourceItem) :=
  [[⟨"1", "f1", "x"⟩], [⟨"2", "f2", "x"⟩], [⟨"3", "f3", "x"⟩],
    [⟨"4", "f4", "x"⟩], [⟨"5", "f5", "x"⟩]]

/-- Demonstration outcome for the C6 witness: only batch 2 fails. -/
def demoOutcome : Nat → Except String Nat :=
  fun k => if k = 2 then Except.error "fail" else Except.ok k

/-- A per-category grade object of a batch record, with every field optional
as in the untrusted parsed JSON. -/
structure CategoryGrade where
  score : Option ℚ
  weight : Option ℚ
  positive_points : Option (List String)
  negative_points : Option (List String)
  observations : Option String
deriving DecidableEq, Repr

/-- The overall-grade object of a batch record. -/
structure OverallGrade where
  weighted_score : Option ℚ
  final_grade : Option String
  summary : Option String
deriving DecidableEq, Repr

/-- The `grades` object of a batch record. -/
structure Grades where
  architecture : Option CategoryGrade
  code_quality : Option CategoryGrade
  validations : Option CategoryGrade
  error_handling : Option CategoryGrade
  overall : Option OverallGrade
deriving DecidableEq, Repr

/-- The `project_summary` object of a batch record. -/
structure ProjectSummary where
  project_name : Option String
  total_files : Option ℚ
  total_classes : Option ℚ
  batches_processed : Option ℚ
  analysis_date : Option String
deriving DecidableEq, Repr

/-- A parsed batch result as consumed by the aggregation code: the fields the
aggregation reads, each optional, plus the `_actual_batch_size` tag added by
`analyzeBatch`.  JavaScript numbers are modelled as exact rationals. -/
structure BatchRecord where
  project_summary : Option ProjectSummary
  grades : Option Grades
  actual_batch_size : Option Nat
deriving DecidableEq, Repr

/-- The four score categories iterated by `aggregateResults`
(`['architecture', 'code_quality', 'validations', 'error_handling']`). -/
inductive Category where
  | architecture
  | code_quality
  | validations
  | error_handling
deriving DecidableEq, Repr

/-- Field access `grades[category]`. -/
def categoryField : Category → Grades → Option CategoryGrade
  | Category.architecture, g => g.architecture
  | Category.code_quality, g => g.code_quality
  | Category.validations, g => g.validations
  | Category.error_handling, g => g.error_handling

/-- Lookup `batch.grades?.[category]?.score` before the `|| 0` default. -/
def scoreLookup (r : BatchRecord) (c : Category) : Option ℚ :=
  (r.grades.bind (categoryField c)).bind CategoryGrade.score

/-- Embedding of `batch.grades?.[category]?.score || 0`. -/
def effScore (r : BatchRecord) (c : Category) : ℚ :=
  (scoreLookup r c).getD 0

/-- Embedding of `batch._actual_batch_size || 1` (weight 1 substituted when
the actual size is missing or zero). -/
def effWeight (r : BatchRecord) : Nat :=
  match r.actual_batch_size with
  | some n => if n = 0 then 1 else n
  | none => 1

/-- The `weightedSum` accumulator of the category loop in
`aggregateResults`. -/
def weightedSumFor (rs : List BatchRecord) (c : Category) : ℚ :=
  (rs.map (fun r => effScore r c * (effWeight r : ℚ))).sum

/-- The `totalWeight` accumulator of the category loop in
`aggregateResults`. -/
def totalWeightFor (rs : List BatchRecord) : Nat :=
  (rs.map effWeight).sum

/-- Embedding of `Math.round(x * 10) / 10` (rounding to one decimal; for
rationals `round` is round-half-up, as `Math.round` is). -/
def round1 (x : ℚ) : ℚ :=
  ((round (x * 10) : ℤ) : ℚ) / 10

/-- Aggregated score of one category:
`totalWeight > 0 ? Math.round(weightedSum / totalWeight * 10) / 10 : 0`. -/
def aggregatedCategoryScore (rs : List BatchRecord) (c : Category) : ℚ :=
  if 0 < totalWeightFor rs then
    round1 (weightedSumFor rs c / (totalWeightFor rs : ℚ))
  else 0

/-- Set-insertion in JavaScript order: first occurrence kept. -/
def insertUnique (acc : List String) (x : String) : List String :=
  if x ∈ acc then acc else acc ++ [x]

/-- Union of the per-batch point lists via a JavaScript `Set`: deduplicated,
first occurrence order. -/
def dedupFirst (l : List String) : List String :=
  l.foldl insertUnique []

/-- Aggregated `positive_points` of one category. -/
def aggregatedPositivePoints (rs : List BatchRecord) (c : Category) :
    List String :=
  dedupFirst (rs.flatMap fun r =>
    ((r.grades.bind (categoryField c)).bind
      CategoryGrade.positive_points).getD [])

/-- Aggregated `negative_points` of one category. -/
def aggregatedNegativePoints (rs : List BatchRecord) (c : Category) :
    List String :=
  dedupFirst (rs.flatMap fun r =>
    ((r.grades.bind (categoryField c)).bind
      CategoryGrade.negative_points).getD [])

/-- Aggregated `observations` of one category: the present, non-empty
observation strings joined with single spaces (`filter(o => o).join(' ')`). -/
def aggregatedObservations (rs : List BatchRecord) (c : Category) : String :=
  String.intercalate " "
    ((rs.filterMap fun r =>
        (r.grades.bind (categoryField c)).bind CategoryGrade.observations
      ).filter (fun o => ¬ o = ""))

/-- The `overallScore` expression of `aggregateResults`: the aggregated
(already rounded) category scores times the fixed weight fractions
`0.25, 0.30, 0.25, 0.20`. -/
def overallScoreOf (rs : List BatchRecord) : ℚ :=
  aggregatedCategoryScore rs Category.architecture * (25 / 100) +
    aggregatedCategoryScore rs Category.code_quality * (30 / 100) +
    aggregatedCategoryScore rs Category.validations * (25 / 100) +
    aggregatedCategoryScore rs Category.error_handling * (20 / 100)

/-- The final-grade cascade of `aggregateResults`
(`if (overallScore >= 9) ... 'A' ... else 'F'`). -/
def finalGradeOf (s : ℚ) : String :=
  if s ≥ 9 then "A"
  else if s ≥ 7 then "B"
  else if s ≥ 5 then "C"
  else if s ≥ 3 then "D"
  else "F"

/-- The structure test of `getValidBaseBatch`: the record has a
`project_summary` and a `grades` object with all four categories and the
overall sub-object. -/
def recordComplete (r : BatchRecord) : Bool :=
  r.project_summary.isSome &&
    match r.grades with
    | some g =>
      g.architecture.isSome && g.code_quality.isSome && g.validations.isSome
        && g.error_handling.isSome && g.overall.isSome
    | none => false

/-- Embedding of `getValidBaseBatch(batchResults)`: the first structurally
complete record; `none` models the thrown
`No valid batch results found` error. -/
def getValidBaseBatch (rs : List BatchRecord) : Option BatchRecord :=
  rs.find? recordComplete

/-- Update of one category object of the template
(`aggregated.grades[category].score = ...` and the point/observation
assignments). -/
def updateCategory (rs : List BatchRecord) (c : Category)
    (cg : Option CategoryGrade) : Option CategoryGrade :=
  cg.map fun x =>
    { x with
      score := some (aggregatedCategoryScore rs c)
      positive_points := some (aggregatedPositivePoints rs c)
      negative_points := some (aggregatedNegativePoints rs c)
      observations := some (aggregatedObservations rs c) }

/-- Update of the template's `grades` object: the four category updates, then
the overall recomputation — `weighted_score` is the rounded overall score and
`final_grade` is the cascade applied to the *unrounded* overall score. -/
def aggregateGrades (rs : List BatchRecord) (g : Grades) : Grades :=
  { architecture := updateCategory rs Category.architecture g.architecture
    code_quality := updateCategory rs Category.code_quality g.code_quality
    validations := updateCategory rs Category.validations g.validations
    error_handling := updateCategory rs Category.error_handling g.error_handling
    overall := g.overall.map fun o =>
      { o with
        weighted_score := some (round1 (overallScoreOf rs))
        final_grade := some (finalGradeOf (overallScoreOf rs)) } }

/-- Embedding of the grading portion of `aggregateResults(batchResults,
totalFiles, totalBatches)`: deep-copies the first valid record, overwrites the
summary counters, the four category grades and the overall grade, and strips
`_actual_batch_size`.  The problem/issue/recommendation merging of the source
touches neither the grades nor the summary and is outside the verified
claims. -/
def aggregateResults (rs : List BatchRecord) (totalFiles totalBatches : ℚ) :
    Option BatchRecord :=
  (getValidBaseBatch rs).map fun base =>
    { project_summary := base.project_summary.map fun ps =>
        { ps with
          total_files := some totalFiles
          batches_processed := some totalBatches
          total_classes := some ((rs.map fun r =>
            ((r.project_summary.bind ProjectSummary.total_classes).getD 0)
            ).sum) }
      grades := base.grades.map (aggregateGrades rs)
      actual_batch_size := none }

/-- Accessor for the category score of an optional aggregated record. -/
def aggCategoryScoreOut (o : Option BatchRecord) (c : Category) : Option ℚ :=
  ((o.bind BatchRecord.grades).bind (categoryField c)).bind CategoryGrade.score

/-- Accessor for the overall weighted score of an optional aggregated
record. -/
def overallWeightedOut (o : Option BatchRecord) : Option ℚ :=
  ((o.bind BatchRecord.grades).bind Grades.overall).bind
    OverallGrade.weighted_score

/-- Accessor for the overall final grade of an optional aggregated record. -/
def overallFinalGradeOut (o : Option BatchRecord) : Option String :=
  ((o.bind BatchRecord.grades).bind Grades.overall).bind
    OverallGrade.final_grade

/-- Demonstration record with the given four category scores and actual
batch size, structurally complete. -/
def demoRec4 (a q v e : ℚ) (w : Nat) : BatchRecord :=
  { project_summary := some ⟨none, none, none, none, none⟩
    grades := some
      ⟨some ⟨some a, none, none, none, none⟩,
        some ⟨some q, none, none, none, none⟩,
        some ⟨some v, none, none, none, none⟩,
        some ⟨some e, none, none, none, none⟩,
        some ⟨none, none, none⟩⟩
    actual_batch_size := some w }

/-- A structurally incomplete but successful batch record: it has a project
summary and an actual size, but no grades at all. -/
def incompleteRec : BatchRecord :=
  { project_summary := some ⟨none, none, none, none, none⟩
    grades := none
    actual_batch_size := some 1 }

/-- The error message thrown by the per-batch schema check in
`analyzeBatch`. -/
def schemaErrorMessage : String :=
  "Parsed JSON missing required fields (project_summary or grades)"

/-- Embedding of the per-batch schema check of `analyzeBatch`
(`if (!analysisResult.project_summary || !analysisResult.grades) throw ...`):
only the two top-level fields are tested. -/
def analyzeBatchCheck (r : BatchRecord) : Except String BatchRecord :=
  if r.project_summary.isSome && r.grades.isSome then Except.ok r
  else Except.error schemaErrorMessage

/-- Accumulated token usage as read by `calculateCost`. -/
structure TokenUsage where
  prompt_tokens : ℚ
  completion_tokens : ℚ
  total_tokens : ℚ
deriving DecidableEq, Repr

/-- One entry of the `PRICING` table; absent fields model the JavaScript
`undefined` (the flash entry has only flat rates, the pro entry only tiered
rates). -/
structure PricingEntry where
  input : Option ℚ
  output : Option ℚ
  input_under_200k : Option ℚ
  input_over_200k : Option ℚ
  output_under_200k : Option ℚ
  output_over_200k : Option ℚ
deriving DecidableEq, Repr

/-- The `gemini-2.5-flash` pricing entry: flat $0.30 / $2.50 per 1M tokens. -/
def flashPricing : PricingEntry :=
  ⟨some (30 / 100), some (25 / 10), none, none, none, none⟩

/-- The `gemini-2.5-pro` pricing entry: tiered around the 200k threshold. -/
def proPricing : PricingEntry :=
  ⟨none, none, some (125 / 100), some (25 / 10), some 10, some 15⟩

/-- Lookup `PRICING[modelName]`. -/
def pricingFor (modelName : String) : Option PricingEntry :=
  if modelName = "gemini-2.5-flash" then some flashPricing
  else if modelName = "gemini-2.5-pro" then some proPricing
  else none

/-- Result object of `calculateCost`; `none` costs model the `NaN` produced
when a rate is `undefined`. -/
structure CostResult where
  input_cost_usd : Option ℚ
  output_cost_usd : Option ℚ
  total_cost_usd : Option ℚ
  model : String
deriving DecidableEq, Repr

/-- Embedding of `calculateCost(tokenUsage, modelName)` of the Gemini script:
`PRICING[modelName] || PRICING['gemini-2.5-flash']` as the entry, the flat
branch for the flash model, the 200k-threshold tier selection otherwise, and
`cost = tokens / 1_000_000 * rate`. -/
def calculateCost (tokenUsage : TokenUsage) (modelName : String) :
    CostResult :=
  let pricing := (pricingFor modelName).getD flashPricing
  let inputRate : Option ℚ :=
    if modelName = "gemini-2.5-flash" then pricing.input
    else if tokenUsage.prompt_tokens > 200000 then pricing.input_over_200k
    else pricing.input_under_200k
  let outputRate : Option ℚ :=
    if modelName = "gemini-2.5-flash" then pricing.output
    else if tokenUsage.completion_tokens > 200000 then
      pricing.output_over_200k
    else pricing.output_under_200k
  let inputCost := inputRate.map
    (fun r => tokenUsage.prompt_tokens / 1000000 * r)
  let outputCost := outputRate.map
    (fun r => tokenUsage.completion_tokens / 1000000 * r)
  let totalCost : Option ℚ :=
    match inputCost, outputCost with
    | some a, some b => some (a + b)
    | _, _ => none
  ⟨inputCost, outputCost, totalCost, modelName⟩

/-- A structured record as exchanged with the remote service: a nested
mapping/array document with string and (natural) number leaves.  Object
fields keep their written order. -/
inductive Json where
  | str : String → Json
  | num : Nat → Json
  | arr : List Json → Json
  | obj : List (String × Json) → Json
deriving Repr

/-- Decimal digit character for a value below 10. -/
def digitChar (d : Nat) : Char :=
  if d = 0 then '0' else if d = 1 then '1' else if d = 2 then '2'
  else if d = 3 then '3' else if d = 4 then '4' else if d = 5 then '5'
  else if d = 6 then '6' else if d = 7 then '7' else if d = 8 then '8'
  else '9'

/-- Decimal rendering of a natural number, as `JSON.stringify` renders it. -/
def natToChars (n : Nat) : List Char :=
  if h : n < 10 then [digitChar n]
  else natToChars (n / 10) ++ [digitChar (n % 10)]
decreasing_by exact Nat.div_lt_self (by omega) (by omega)

/-- Numeric value of a scanned digit string (the parser's accumulator). -/
def ofDigits (l : List Char) : Nat :=
  l.foldl (fun a c => 10 * a + (c.toNat - 48)) 0

mutual

/-- Serialization of a record, as `JSON.stringify` produces it (no added
whitespace; string contents emitted verbatim, which coincides with
`JSON.stringify` whenever the strings need no escaping). -/
def serializeChars : Json → List Char
  | Json.str s => '"' :: s.data ++ ['"']
  | Json.num n => natToChars n
  | Json.arr vs => '[' :: serializeElems vs ++ [']']
  | Json.obj fs => '{' :: serializeFieldsChars fs ++ ['}']

/-- Comma-separated serialization of array elements. -/
def serializeElems : List Json → List Char
  | [] => []
  | [v] => serializeChars v
  | v :: w :: vs => serializeChars v ++ ',' :: serializeElems (w :: vs)

/-- Comma-separated serialization of object fields. -/
def serializeFieldsChars : List (String × Json) → List Char
  | [] => []
  | [(k, v)] => '"' :: k.data ++ '"' :: ':' :: serializeChars v
  | (k, v) :: f :: fs =>
    ('"' :: k.data ++ '"' :: ':' :: serializeChars v) ++
      ',' :: serializeFieldsChars (f :: fs)

end

/-- Serialization of an object record with exactly one trailing separator
(comma) inserted immediately before the closing brace. -/
def serializeTrailing (fs : List (String × Json)) : List Char :=
  '{' :: serializeFieldsChars fs ++ [',', '}']

/-- A character that survives the repair pass unharmed inside a string
literal: printable and none of double quote, backslash, comma, closing brace,
closing bracket. -/
def safeChar (c : Char) : Bool :=
  32 ≤ c.toNat && !(c = '"') && !(c = '\\') && !(c = ',') && !(c = '}')
    && !(c = ']')

/-- All characters of the string are safe. -/
def safeString (s : String) : Bool :=
  s.data.all safeChar

mutual

/-- Every string (key or value) of the record is safe. -/
def safeJson : Json → Bool
  | Json.str s => safeString s
  | Json.num _ => true
  | Json.arr vs => safeJsonList vs
  | Json.obj fs => safeJsonFields fs

/-- Safety of a list of values. -/
def safeJsonList : List Json → Bool
  | [] => true
  | v :: vs => safeJson v && safeJsonList vs

/-- Safety of a list of fields. -/
def safeJsonFields : List (String × Json) → Bool
  | [] => true
  | (k, v) :: fs => safeString k && safeJson v && safeJsonFields fs

end

mutual

/-- Recursive-descent parser for the record fragment produced by
`serializeChars` — a model of `JSON.parse` on whitespace-free documents (the
serializer emits none) over the same value domain.  Returns the parsed value
and the unconsumed remainder; `fuel` bounds the recursion depth. -/
def parseJson : Nat → List Char → Option (Json × List Char)
  | 0, _ => none
  | _ + 1, [] => none
  | fuel + 1, c :: rest =>
    if c = '"' then
      let content := rest.takeWhile (fun d => !(d = '"'))
      match rest.drop content.length with
      | '"' :: rest2 => some (Json.str (String.mk content), rest2)
      | _ => none
    else if c = '[' then
      match rest with
      | ']' :: rest2 => some (Json.arr [], rest2)
      | _ =>
        match parseElems fuel rest with
        | some (vs, rest2) => some (Json.arr vs, rest2)
        | none => none
    else if c = '{' then
      match rest with
      | '}' :: rest2 => some (Json.obj [], rest2)
      | _ =>
        match parseFields fuel rest with
        | some (fs, rest2) => some (Json.obj fs, rest2)
        | none => none
    else if c.isDigit then
      let ds := (c :: rest).takeWhile Char.isDigit
      some (Json.num (ofDigits ds), (c :: rest).drop ds.length)
    else none

/-- Parser for the non-empty comma-separated element list of an array,
consuming the closing bracket. -/
def parseElems : Nat → List Char → Option (List Json × List Char)
  | 0, _ => none
  | fuel + 1, cs =>
    match parseJson fuel cs with
    | some (v, rest) =>
      match rest with
      | ',' :: rest2 =>
        match parseElems fuel rest2 with
        | some (vs, rest3) => some (v :: vs, rest3)
        | none => none
      | ']' :: rest2 => some ([v], rest2)
      | _ => none
    | none => none

/-- Parser for the non-empty comma-separated field list of an object,
consuming the closing brace. -/
def parseFields : Nat → List Char → Option (List (String × Json) × List Char)
  | 0, _ => none
  | fuel + 1, cs =>
    match cs with
    | '"' :: rest =>
      let key := rest.takeWhile (fun d => !(d = '"'))
      match rest.drop key.length with
      | '"' :: ':' :: rest2 =>
        match parseJson fuel rest2 with
        | some (v, rest3) =>
          match rest3 with
          | ',' :: rest4 =>
            match parseFields fuel rest4 with
            | some (fs, rest5) => some ((String.mk key, v) :: fs, rest5)
            | none => none
          | '}' :: rest4 => some ([(String.mk key, v)], rest4)
          | _ => none
        | none => none
      | _ => none
    | _ => none

end

/-- Whole-text parse: succeeds when the document parses with nothing left
over. -/
def parseJsonText (s : String) : Option Json :=
  match parseJson (s.length + 1) s.data with
  | some (v, []) => some v
  | _ => none

/-- The whitespace class of the JavaScript regex `\s`, restricted to the
common cases. -/
def isJsWs (c : Char) : Bool :=
  c = ' ' || c = '\t' || c = '\n' || c = '\r'

/-- Head of the list is a closing brace or bracket. -/
def headCloses : List Char → Bool
  | b :: _ => b = '}' || b = ']'
  | [] => false

/-- Embedding of `replace(/,(\s*[}\]])/g, '$1')`: a comma followed by
optional whitespace and a closing brace/bracket is dropped, the whitespace
and bracket are kept.  Since neither whitespace nor a bracket can start a
match, emitting the kept characters one by one is observably the regex's
left-to-right global scan. -/
def stripTrailingCommas : List Char → List Char
  | [] => []
  | c :: rest =>
    if c = ',' && headCloses (rest.dropWhile isJsWs) then
      stripTrailingCommas rest
    else c :: stripTrailingCommas rest

/-- Scanner of `replace(/([^\\])\\n/g, '$1\\\\n')` (and the `\\t`
analogue) with explicit fuel: a backslash-`t` pair preceded by a
non-backslash gets its backslash doubled, and scanning continues after the
match.  The fuel only needs to cover the list length. -/
def escFixGo (t : Char) : Nat → List Char → List Char
  | 0, l => l
  | _ + 1, [] => []
  | _ + 1, [a] => [a]
  | _ + 1, [a, b] => [a, b]
  | fuel + 1, a :: b :: c :: rest =>
    if !(a = '\\') && b = '\\' && c = t then
      a :: '\\' :: '\\' :: c :: escFixGo t fuel rest
    else a :: escFixGo t fuel (b :: c :: rest)

/-- The escape-fix pass for one target character. -/
def escFixOne (t : Char) (l : List Char) : List Char :=
  escFixGo t l.length l

/-- Embedding of the re-clip step: keep the substring from the first `{` to
the last `}` when both exist in that order. -/
def clipBraces (l : List Char) : List Char :=
  let firstBrace := l.findIdx? (fun c => c = '{')
  let lastBrace : Option Nat :=
    match l.reverse.findIdx? (fun c => c = '}') with
    | some j => some (l.length - 1 - j)
    | none => none
  match firstBrace, lastBrace with
  | some i, some j => if i < j then (l.drop i).take (j + 1 - i) else l
  | _, _ => l

/-- Embedding of `attemptJsonRepair(jsonText)` of the Gemini script: strip
trailing separators before closing braces/brackets, double the backslash of
unescaped `\n` and `\t` sequences, then re-clip from the first `{` to the
last `}`. -/
def attemptJsonRepair (jsonText : String) : String :=
  String.mk
    (clipBraces (escFixOne 't' (escFixOne 'n'
      (stripTrailingCommas jsonText.data))))

/-- Comma discipline of serialized text: every comma is immediately followed
by a character that is neither whitespace nor a closing brace/bracket (so the
comma-strip regex never fires inside it, whatever follows the text). -/
def commaSafe : List Char → Bool
  | [] => true
  | a :: rest =>
    (if a = ',' then
      match rest with
      | [] => false
      | b :: _ => !(isJsWs b) && !(b = '}') && !(b = ']')
    else true) && commaSafe rest

/-- The first character of the list is neither whitespace nor a closing
brace/bracket. -/
def firstOk : List Char → Bool
  | [] => false
  | c :: _ => !(isJsWs c) && !(c = '}') && !(c = ']')

/-- Observable separating parsed records: the length of the string in the
first field of a parsed object, 0 otherwise. -/
def firstFieldStrLen : Option Json → Nat
  | some (Json.obj ((_, Json.str s) :: _)) => s.data.length
  | _ => 0

/-- Joining the planner state reconstructs the input: finished batches, then
the current batch, then the unprocessed items. -/
theorem createBatchesGo_join (batchSize maxInputTokens : Nat) :
    ∀ (rest : List SourceItem) (batches : List (List SourceItem))
      (currentBatch : List SourceItem) (tok : Nat),
      (createBatchesGo batchSize maxInputTokens rest batches currentBatch
          tok).flatten =
        batches.flatten ++ currentBatch ++ rest
  | [], batches, currentBatch, tok => by
    by_cases h : currentBatch.length > 0 <;>
      simp_all [createBatchesGo, List.length_pos]
  | file :: rest, batches, currentBatch, tok => by
    by_cases h : currentBatch.length ≥ batchSize ∨
        (tok + estimateTokens file.content > maxInputTokens ∧
          currentBatch.length > 0)
    · simp [createBatchesGo, h,
        createBatchesGo_join batchSize maxInputTokens rest]
    · simp [createBatchesGo, h,
        createBatchesGo_join batchSize maxInputTokens rest]

/-- Size-bound invariant for the planner loop: when `batchSize ≥ 1`, every
batch it ever emits has at most `batchSize` items. -/
theorem createBatchesGo_sizes (batchSize maxInputTokens : Nat)
    (hbs : 1 ≤ batchSize) :
    ∀ (rest : List SourceItem) (batches : List (List SourceItem))
      (currentBatch : List SourceItem) (tok : Nat),
      (∀ b ∈ batches, b.length ≤ batchSize) →
      currentBatch.length ≤ batchSize →
      ∀ b ∈ createBatchesGo batchSize maxInputTokens rest batches currentBatch
          tok, b.length ≤ batchSize
  | [], batches, currentBatch, tok, hb, hc => by
    by_cases h : currentBatch.length > 0 <;>
      simp_all [createBatchesGo] <;>
      (intro b hbmem; rcases hbmem with hbmem | hbmem)
    · exact hb b hbmem
    · simpa [hbmem] using hc
  | file :: rest, batches, currentBatch, tok, hb, hc => by
    by_cases h : currentBatch.length ≥ batchSize ∨
        (tok + estimateTokens file.content > maxInputTokens ∧
          currentBatch.length > 0)
    · simp only [createBatchesGo, h, if_pos]
      refine createBatchesGo_sizes batchSize maxInputTokens hbs rest _ _ _
        ?_ ?_
      · intro b hbmem
        rcases List.mem_append.mp hbmem with hbmem | hbmem
        · exact hb b hbmem
        · simp only [List.mem_singleton] at hbmem
          simpa [hbmem] using hc
      · simpa using hbs
    · simp only [createBatchesGo, h, if_neg, not_false_iff]
      push_neg at h
      refine createBatchesGo_sizes batchSize maxInputTokens hbs rest _ _ _
        hb ?_
      simp [Nat.succ_le_of_lt h.1]

/-- Oversized-item invariant for the planner loop: provided the running token
estimate is the sum over the current batch, every batch the loop emits keeps
any over-budget item alone. -/
theorem createBatchesGo_oversized (batchSize maxInputTokens : Nat) :
    ∀ (rest : List SourceItem) (batches : List (List SourceItem))
      (currentBatch : List SourceItem) (tok : Nat),
      tok = (currentBatch.map (fun x => estimateTokens x.content)).sum →
      (∀ b ∈ batches, aloneIfOversized maxInputTokens b) →
      aloneIfOversized maxInputTokens currentBatch →
      ∀ b ∈ createBatchesGo batchSize maxInputTokens rest batches currentBatch
          tok, aloneIfOversized maxInputTokens b
  | [], batches, currentBatch, tok, htok, hb, hc => by
    by_cases h : currentBatch.length > 0 <;>
      simp only [createBatchesGo, h, if_pos, if_neg, not_false_iff] <;>
      intro b hbmem
    · rcases List.mem_append.mp hbmem with hbmem | hbmem
      · exact hb b hbmem
      · simp only [List.mem_singleton] at hbmem
        simpa [hbmem] using hc
    · simp at h
      exact hb b hbmem
  | file :: rest, batches, currentBatch, tok, htok, hb, hc => by
    by_cases h : currentBatch.length ≥ batchSize ∨
        (tok + estimateTokens file.content > maxInputTokens ∧
          currentBatch.length > 0)
    · simp only [createBatchesGo, h, if_pos]
      refine createBatchesGo_oversized batchSize maxInputTokens rest _ _ _
        (by simp) ?_ ?_
      · intro b hbmem
        rcases List.mem_append.mp hbmem with hbmem | hbmem
        · exact hb b hbmem
        · simp only [List.mem_singleton] at hbmem
          simpa [hbmem] using hc
      · intro x hx _
        simp only [List.mem_singleton] at hx
        simp [hx]
    · simp only [createBatchesGo, h, if_neg, not_false_iff]
      push_neg at h
      refine createBatchesGo_oversized batchSize maxInputTokens rest _ _ _
        (by simp [htok]) hb ?_
      intro y hy hyover
      rcases List.mem_append.mp hy with hy | hy
      · -- an oversized item already in the current batch would have forced a
        -- flush before `file` was appended
        have hsing : currentBatch = [y] := hc y hy hyover
        exfalso
        have hover : maxInputTokens < tok + estimateTokens file.content := by
          have : estimateTokens y.content ≤ tok := by
            simp [htok, hsing]
          omega
        have := h.2 hover
        simp [hsing] at this
      · -- `file` itself is oversized, so the batch it was appended to is empty
        simp only [List.mem_singleton] at hy
        subst hy
        have hover : maxInputTokens < tok + estimateTokens y.content := by
          omega
        have h0 := h.2 hover
        simp only [Nat.not_lt, Nat.le_zero] at h0
        simp [List.length_eq_zero.mp h0]

/-- C3 (amended): for every input list, every `maxItemsPerBatch ≥ 1` and every
token budget, `createBatches` drops no item and preserves order — the
concatenation of the output batches equals the input — every output batch has
at most `maxItemsPerBatch` items, and the total item count over all batches
equals the input length. -/
theorem createBatches_partition (items : List SourceItem)
    (batchSize maxInputTokens : Nat) (hbs : 1 ≤ batchSize) :
    (createBatches items batchSize maxInputTokens).flatten = items ∧
    (∀ b ∈ createBatches items batchSize maxInputTokens,
      b.length ≤ batchSize) ∧
    ((createBatches items batchSize maxInputTokens).map List.length).sum =
      items.length := by
  have hjoin : (createBatches items batchSize maxInputTokens).flatten =
      items := by
    simpa [createBatches] using
      createBatchesGo_join batchSize maxInputTokens items [] [] 0
  refine ⟨hjoin, ?_, ?_⟩
  · exact createBatchesGo_sizes batchSize maxInputTokens hbs items [] [] 0
      (by simp) (by simp)
  · calc ((createBatches items batchSize maxInputTokens).map
          List.length).sum
        = (createBatches items batchSize maxInputTokens).flatten.length := by
          rw [List.length_flatten]
      _ = items.length := by rw [hjoin]

/-- C3 counterexample: with `maxItemsPerBatch = 0` the claim fails — the
planner emits a leading empty batch and then singleton batches, so a batch of
size `1 > 0` appears (the no-drop part still holds). -/
theorem createBatches_zero_batchSize_cex :
    ¬ ((createBatches [⟨"p", "n", "cont"⟩] 0 100).flatten =
        [⟨"p", "n", "cont"⟩] ∧
      ∀ b ∈ createBatches [⟨"p", "n", "cont"⟩] 0 100, b.length ≤ 0) := by
  decide

/-- C3 witness: a concrete three-item run at `maxItemsPerBatch = 2`. -/
theorem createBatches_partition_witness :
    (createBatches [⟨"a", "a", "xx"⟩, ⟨"b", "b", "yy"⟩, ⟨"c", "c", "zz"⟩]
        2 100).flatten =
      [⟨"a", "a", "xx"⟩, ⟨"b", "b", "yy"⟩, ⟨"c", "c", "zz"⟩] ∧
    (∀ b ∈ createBatches [⟨"a", "a", "xx"⟩, ⟨"b", "b", "yy"⟩,
        ⟨"c", "c", "zz"⟩] 2 100, b.length ≤ 2) ∧
    ((createBatches [⟨"a", "a", "xx"⟩, ⟨"b", "b", "yy"⟩, ⟨"c", "c", "zz"⟩]
        2 100).map List.length).sum = 3 :=
  createBatches_partition _ 2 100 (by decide)

/-- C4: for `maxItemsPerBatch ≥ 2`, any single item whose estimated token
count alone exceeds the budget is placed by `createBatches` alone in its own
batch. -/
theorem createBatches_oversized_alone (items : List SourceItem)
    (batchSize maxInputTokens : Nat) (hbs : 2 ≤ batchSize) :
    ∀ b ∈ createBatches items batchSize maxInputTokens, ∀ x ∈ b,
      maxInputTokens < estimateTokens x.content → b = [x] :=
  createBatchesGo_oversized batchSize maxInputTokens items [] [] 0 (by simp)
    (by simp) (by intro x hx; simp at hx)

/-- C4 witness: with budget `1`, the item with 8-character content (estimate
`2 > 1`) lands in the batch `[big]`, and the theorem applied there returns
that this batch is exactly the singleton. -/
theorem createBatches_oversized_alone_witness :
    [(⟨"b", "big", "aaaaaaaa"⟩ : SourceItem)] ∈
      createBatches [⟨"s", "small", "qq"⟩, ⟨"b", "big", "aaaaaaaa"⟩] 2 1 ∧
    [(⟨"b", "big", "aaaaaaaa"⟩ : SourceItem)] =
      [(⟨"b", "big", "aaaaaaaa"⟩ : SourceItem)] :=
  ⟨by decide,
    createBatches_oversized_alone
      [⟨"s", "small", "qq"⟩, ⟨"b", "big", "aaaaaaaa"⟩] 2 1 (by decide)
      [⟨"b", "big", "aaaaaaaa"⟩] (by decide) ⟨"b", "big", "aaaaaaaa"⟩
      (by decide) (by decide)⟩

/-- Trace of the retry loop when every attempt fails: starting at `attempt`
with `remaining ≥ 1` attempts left, the submit function is invoked once per
remaining attempt, the thrown error is the final attempt's error, and a wait
of `baseDelay * backoff ^ (k - 1)` is performed after each failed attempt `k`
except the last. -/
theorem retryGo_always_fail {E A : Type} (err : Nat → E)
    (baseDelay backoff : Nat) :
    ∀ remaining attempt, 1 ≤ remaining →
      retryGo (fun k => (Except.error (err k) : Except E A)) baseDelay backoff
          attempt remaining =
        ⟨Except.error (some (err (attempt + remaining - 1))), remaining,
          (List.range' attempt (remaining - 1)).map
            (fun k => baseDelay * backoff ^ (k - 1))⟩
  | 1, attempt, _ => by
    simp [retryGo]
  | remaining + 2, attempt, _ => by
    have ih := retryGo_always_fail (A := A) err baseDelay backoff
      (remaining + 1) (attempt + 1) (by omega)
    rw [retryGo, ih]
    have h1 : attempt + 1 + (remaining + 1) - 1 = attempt + (remaining + 2) - 1 := by
      omega
    have h2 : List.range' attempt (remaining + 2 - 1) =
        attempt :: List.range' (attempt + 1) (remaining + 1 - 1) := by
      have : remaining + 2 - 1 = (remaining + 1 - 1) + 1 := by omega
      rw [this, List.range'_succ]
    simp only [h1, h2, List.map_cons]
    rw [if_neg (Nat.succ_ne_zero remaining)]

/-- C5: the retrying executor.  First conjunct: for every submit function that
always fails and every attempt budget `N ≥ 1`, it invokes the function exactly
`N` times, waits `baseDelay * backoff ^ (k-1)` after each failed attempt
`k < N`, and propagates the final attempt's error.  Second conjunct: with the
default configuration (3 attempts, base delay 1000, back-off factor 2), a
submit function that fails twice and then succeeds is invoked exactly 3 times,
the waits are 1000ms and 2000ms, and the success value is returned. -/
theorem analyzeBatchWithRetry_spec {E A : Type} (err : Nat → E)
    (N baseDelay backoff : Nat) (hN : 1 ≤ N)
    (submit2 : Nat → Except E A) (v : A)
    (h1 : submit2 1 = Except.error (err 1))
    (h2 : submit2 2 = Except.error (err 2))
    (h3 : submit2 3 = Except.ok v) :
    analyzeBatchWithRetry N baseDelay backoff
        (fun k => (Except.error (err k) : Except E A)) =
      ⟨Except.error (some (err N)), N,
        (List.range' 1 (N - 1)).map
          (fun k => baseDelay * backoff ^ (k - 1))⟩ ∧
    analyzeBatchWithRetry 3 1000 2 submit2 =
      ⟨Except.ok v, 3, [1000, 2000]⟩ := by
  constructor
  · have h := retryGo_always_fail (A := A) err baseDelay backoff N 1 hN
    simpa [analyzeBatchWithRetry] using h
  · simp [analyzeBatchWithRetry, retryGo, h1, h2, h3]

/-- C5 witness: concrete runs with the default configuration — an
always-failing submit is invoked 3 times with waits 1000 and 2000 and its last
error propagated; a fail-twice-then-succeed submit returns 42 after 3
invocations. -/
theorem analyzeBatchWithRetry_spec_witness :
    analyzeBatchWithRetry 3 1000 2
        (fun _ => (Except.error "boom" : Except String Nat)) =
      ⟨Except.error (some "boom"), 3, [1000, 2000]⟩ ∧
    analyzeBatchWithRetry 3 1000 2
        (fun k => if k ≤ 2 then Except.error "boom" else Except.ok 42) =
      ⟨Except.ok 42, 3, [1000, 2000]⟩ := by
  have h := analyzeBatchWithRetry_spec (fun _ => "boom") 3 1000 2
    (by decide) (fun k => if k ≤ 2 then Except.error "boom" else Except.ok 42)
    42 (by rfl) (by rfl) (by rfl)
  exact ⟨by rw [h.1]; rfl, h.2⟩

/-- Settling a concatenation of chunks settles each chunk in turn, with the
batch numbering carried across the boundary. -/
theorem processChunk_append (outcome : Nat → Except E R) :
    ∀ (l1 l2 : List (List SourceItem)) (n : Nat),
      processChunk outcome n (l1 ++ l2) =
        ((processChunk outcome n l1).1 ++
            (processChunk outcome (n + l1.length) l2).1,
          (processChunk outcome n l1).2 ++
            (processChunk outcome (n + l1.length) l2).2)
  | [], l2, n => by simp [processChunk]
  | b :: l1, l2, n => by
    have ih := processChunk_append outcome l1 l2 (n + 1)
    rcases h : outcome n with e | r <;>
      simp [processChunk, h, ih, Nat.add_comm, Nat.add_assoc, Nat.add_left_comm]

/-- The wave structure is irrelevant to the collected outcome: the wave loop
settles the batches exactly as one pass over all of them would. -/
theorem processBatchesGo_eq_processChunk (outcome : Nat → Except E R)
    (cPred : Nat) :
    ∀ (l : List (List SourceItem)) (n : Nat),
      processBatchesGo outcome cPred n l = processChunk outcome n l
  | [], n => by simp [processBatchesGo, processChunk]
  | b :: rest, n => by
    have ih := processBatchesGo_eq_processChunk outcome cPred
      (rest.drop cPred) (n + (b :: rest.take cPred).length)
    rw [processBatchesGo]
    have hsplit : (b :: rest.take cPred) ++ rest.drop cPred = b :: rest := by
      simp
    have happ := processChunk_append outcome (b :: rest.take cPred)
      (rest.drop cPred) n
    rw [hsplit] at happ
    simp only [ih, happ]
termination_by l n => l.length
decreasing_by
  simp only [List.length_cons, List.length_drop]
  omega

/-- One settling pass is exactly the partition of the numbered batches into
successes and failures. -/
theorem processChunk_eq_filterMap (outcome : Nat → Except E R) :
    ∀ (l : List (List SourceItem)) (n : Nat),
      processChunk outcome n l =
        ((l.enumFrom n).filterMap (chunkOk outcome),
          (l.enumFrom n).filterMap (chunkErr outcome))
  | [], n => by simp [processChunk]
  | b :: rest, n => by
    have ih := processChunk_eq_filterMap outcome rest (n + 1)
    rcases h : outcome n with e | r <;>
      simp [processChunk, h, ih, List.enumFrom, List.filterMap_cons, chunkOk,
        chunkErr, Except.toOption]

/-- Every numbered batch lands in exactly one of the two output lists. -/
theorem chunk_filterMap_length (outcome : Nat → Except E R) :
    ∀ (l : List (List SourceItem)) (n : Nat),
      ((l.enumFrom n).filterMap (chunkOk outcome)).length +
          ((l.enumFrom n).filterMap (chunkErr outcome)).length = l.length
  | [], n => by simp
  | b :: rest, n => by
    have ih := chunk_filterMap_length outcome rest (n + 1)
    rcases h : outcome n with e | r <;>
      simp [List.enumFrom, List.filterMap_cons, chunkOk, chunkErr,
        Except.toOption, h] <;>
      omega

/-- C6: for every list of batches, every per-batch outcome assignment and
every concurrency `≥ 1`, `processBatchesInParallel` never raises on a
per-batch failure and returns the complete partition of the batches: batch
number `k` (1-based) appears exactly once, in the success list when
`outcome k` succeeded and otherwise in the failure list together with its
batch number, error and item names; in particular the success and failure
counts sum to the number of batches. -/
theorem processBatchesInParallel_partition (batches : List (List SourceItem))
    (outcome : Nat → Except E R) (concurrency : Nat) (hc : 1 ≤ concurrency) :
    processBatchesInParallel batches outcome concurrency =
      some ((batches.enumFrom 1).filterMap (chunkOk outcome),
        (batches.enumFrom 1).filterMap (chunkErr outcome)) ∧
    ((batches.enumFrom 1).filterMap (chunkOk outcome)).length +
        ((batches.enumFrom 1).filterMap (chunkErr outcome)).length =
      batches.length := by
  constructor
  · have h0 : ¬ concurrency = 0 := by omega
    rw [processBatchesInParallel, if_neg h0,
      processBatchesGo_eq_processChunk, processChunk_eq_filterMap]
  · exact chunk_filterMap_length outcome batches 1

/-- C6 witness: 5 batches at concurrency 3 where only batch 2 fails settle to
4 successes and 1 failure (carrying batch number 2, its error and its file
name), and the run does not raise. -/
theorem processBatchesInParallel_partition_witness :
    processBatchesInParallel demoBatches demoOutcome 3 =
      some ([1, 3, 4, 5], [⟨2, "fail", ["f2"]⟩]) ∧
    ([1, 3, 4, 5] : List Nat).length = 4 ∧
    ([(⟨2, "fail", ["f2"]⟩ : BatchFailure String)]).length = 1 := by
  have h := processBatchesInParallel_partition demoBatches demoOutcome 3
    (by decide)
  exact ⟨by rw [h.1]; rfl, by rfl, by rfl⟩

/-- Every batch contributes weight at least 1. -/
theorem effWeight_pos (r : BatchRecord) : 1 ≤ effWeight r := by
  rcases h : r.actual_batch_size with _ | n
  · simp [effWeight, h]
  · simp only [effWeight, h]
    by_cases h0 : n = 0
    · simp [h0]
    · simp only [h0, if_false]
      omega

/-- A non-empty result list has positive total weight. -/
theorem totalWeightFor_pos (rs : List BatchRecord) (r : BatchRecord)
    (hr : r ∈ rs) : 0 < totalWeightFor rs := by
  induction rs with
  | nil => cases hr
  | cons x t ih =>
    have := effWeight_pos x
    simp only [totalWeightFor, List.map_cons, List.sum_cons]
    omega

/-- C2: whenever aggregation runs (a valid template exists, hence the result
list is non-empty), the aggregated score of each category equals the
item-count-weighted mean of the per-batch scores — weights
`_actual_batch_size` with 1 substituted when falsy, scores defaulted to 0 —
rounded to one decimal place. -/
theorem aggregateResults_category_score (rs : List BatchRecord)
    (totalFiles totalBatches : ℚ) (c : Category) (base : BatchRecord)
    (h : getValidBaseBatch rs = some base) :
    aggCategoryScoreOut (aggregateResults rs totalFiles totalBatches) c =
      some (round1 (weightedSumFor rs c / (totalWeightFor rs : ℚ))) := by
  have hcomp : recordComplete base = true := List.find?_some h
  have hmem : base ∈ rs := List.mem_of_find?_eq_some h
  have hw : 0 < totalWeightFor rs := totalWeightFor_pos rs base hmem
  rcases hg : base.grades with _ | g
  · rw [recordComplete, hg] at hcomp
    simp at hcomp
  · rw [recordComplete, hg] at hcomp
    simp only [Bool.and_eq_true] at hcomp
    obtain ⟨hps, ⟨⟨⟨ha, hq⟩, hv⟩, he⟩, ho⟩ := hcomp
    obtain ⟨a, ha⟩ := Option.isSome_iff_exists.mp ha
    obtain ⟨q, hq⟩ := Option.isSome_iff_exists.mp hq
    obtain ⟨v, hv⟩ := Option.isSome_iff_exists.mp hv
    obtain ⟨e, he⟩ := Option.isSome_iff_exists.mp he
    simp only [aggCategoryScoreOut, aggregateResults, h, Option.map_some,
      Option.bind_some, hg, aggregateGrades]
    cases c <;>
      simp [categoryField, updateCategory, aggregateGrades, hg, ha, hq, hv,
        he, aggregatedCategoryScore, hw]

/-- C2 witness: two batches with scores 6 and 10 and actual sizes 1 and 3
aggregate to the weighted mean `(6*1 + 10*3)/4 = 9`. -/
theorem aggregateResults_category_score_witness :
    aggCategoryScoreOut
        (aggregateResults [demoRec4 6 6 6 6 1, demoRec4 10 10 10 10 3] 4 2)
        Category.architecture = some 9 := by
  have h := aggregateResults_category_score
    [demoRec4 6 6 6 6 1, demoRec4 10 10 10 10 3] 4 2
    Category.architecture (demoRec4 6 6 6 6 1) (by decide)
  rw [h]
  norm_num [weightedSumFor, totalWeightFor, effScore, scoreLookup, effWeight,
    categoryField, demoRec4, round1, round_eq]

/-- Shared computation: when a valid template with an overall object exists,
the aggregated overall fields are the rounded weighted sum and the grade
cascade on the unrounded weighted sum. -/
theorem aggregate_overall_out (rs : List BatchRecord)
    (totalFiles totalBatches : ℚ) (base : BatchRecord) (g : Grades)
    (o : OverallGrade) (h : getValidBaseBatch rs = some base)
    (hg : base.grades = some g) (ho : g.overall = some o) :
    overallWeightedOut (aggregateResults rs totalFiles totalBatches) =
      some (round1 (overallScoreOf rs)) ∧
    overallFinalGradeOut (aggregateResults rs totalFiles totalBatches) =
      some (finalGradeOf (overallScoreOf rs)) := by
  constructor <;>
    simp [overallWeightedOut, overallFinalGradeOut, aggregateResults, h,
      aggregateGrades, hg, ho]

/-- C1 (amended): whenever aggregation runs, the overall `weighted_score` is
the sum of the aggregated category scores times the fixed weight fractions
(architecture 0.25, quality 0.30, validations 0.25, errorHandling 0.20)
rounded to one decimal, the `final_grade` is the step function applied to the
*unrounded* weighted sum, and both always override whatever overall grade the
template batch carried. -/
theorem aggregateResults_overall (rs : List BatchRecord)
    (totalFiles totalBatches : ℚ) (base : BatchRecord)
    (h : getValidBaseBatch rs = some base) :
    overallWeightedOut (aggregateResults rs totalFiles totalBatches) =
      some (round1 (overallScoreOf rs)) ∧
    overallFinalGradeOut (aggregateResults rs totalFiles totalBatches) =
      some (finalGradeOf (overallScoreOf rs)) := by
  have hcomp : recordComplete base = true := List.find?_some h
  rcases hg : base.grades with _ | g
  · rw [recordComplete, hg] at hcomp
    simp at hcomp
  · rw [recordComplete, hg] at hcomp
    simp only [Bool.and_eq_true] at hcomp
    obtain ⟨hps, ⟨⟨⟨ha, hq⟩, hv⟩, he⟩, ho⟩ := hcomp
    obtain ⟨o, ho⟩ := Option.isSome_iff_exists.mp ho
    exact aggregate_overall_out rs totalFiles totalBatches base g o h hg ho

/-- C1 witness: a single batch with all four scores 8 and size 1 yields
overall `8.0` and grade `B`. -/
theorem aggregateResults_overall_witness :
    overallWeightedOut (aggregateResults [demoRec4 8 8 8 8 1] 1 1) =
      some 8 ∧
    overallFinalGradeOut (aggregateResults [demoRec4 8 8 8 8 1] 1 1) =
      some "B" := by
  have h := aggregateResults_overall [demoRec4 8 8 8 8 1] 1 1
    (demoRec4 8 8 8 8 1) (by rfl)
  have hov : overallScoreOf [demoRec4 8 8 8 8 1] = 8 := by
    norm_num [overallScoreOf, aggregatedCategoryScore, weightedSumFor,
      totalWeightFor, effScore, scoreLookup, effWeight, demoRec4,
      categoryField, round1, round_eq]
  refine ⟨h.1.trans ?_, h.2.trans ?_⟩
  · rw [hov]
    norm_num [round1, round_eq]
  · rw [hov]
    norm_num [finalGradeOf]

/-- C1 counterexample: one batch with category scores `9, 9, 9, 8.8` and size
1 gives the unrounded overall `8.96`, so `weighted_score` rounds to `9.0` but
`final_grade` is `B` — not the step function of the (rounded) weighted score,
which maps `9.0` to `A`. -/
theorem aggregateResults_overall_cex :
    overallWeightedOut (aggregateResults [demoRec4 9 9 9 (44 / 5) 1] 1 1) =
      some 9 ∧
    overallFinalGradeOut (aggregateResults [demoRec4 9 9 9 (44 / 5) 1] 1 1) =
      some "B" ∧
    finalGradeOf 9 = "A" := by
  have h := aggregate_overall_out [demoRec4 9 9 9 (44 / 5) 1] 1 1
    (demoRec4 9 9 9 (44 / 5) 1)
    ⟨some ⟨some 9, none, none, none, none⟩,
      some ⟨some 9, none, none, none, none⟩,
      some ⟨some 9, none, none, none, none⟩,
      some ⟨some (44 / 5), none, none, none, none⟩,
      some ⟨none, none, none⟩⟩
    ⟨none, none, none⟩ (by rfl) (by rfl) (by rfl)
  have hov : overallScoreOf [demoRec4 9 9 9 (44 / 5) 1] = 224 / 25 := by
    norm_num [overallScoreOf, aggregatedCategoryScore, weightedSumFor,
      totalWeightFor, effScore, scoreLookup, effWeight, demoRec4,
      categoryField, round1, round_eq]
  refine ⟨h.1.trans ?_, h.2.trans ?_, by norm_num [finalGradeOf]⟩
  · rw [hov]
    norm_num [round1, round_eq]
  · rw [hov]
    norm_num [finalGradeOf]

/-- C10: a batch result that lacks a category's grade, or whose score for it
is missing or 0, is still counted by the aggregation: it contributes score 0
with its full weight (`_actual_batch_size`, or 1 when that is falsy) to the
category's weighted mean, so it strictly lowers a positive mean rather than
being excluded from the average. -/
theorem aggregate_counts_incomplete (rs : List BatchRecord) (r : BatchRecord)
    (c : Category)
    (h : scoreLookup r c = none ∨ scoreLookup r c = some 0) :
    weightedSumFor (rs ++ [r]) c = weightedSumFor rs c ∧
    totalWeightFor (rs ++ [r]) = totalWeightFor rs + effWeight r ∧
    1 ≤ effWeight r ∧
    (0 < weightedSumFor rs c →
      weightedSumFor (rs ++ [r]) c / (totalWeightFor (rs ++ [r]) : ℚ) <
        weightedSumFor rs c / (totalWeightFor rs : ℚ)) := by
  have hz : effScore r c = 0 := by
    rcases h with h | h <;> simp [effScore, h]
  have hsum : weightedSumFor (rs ++ [r]) c = weightedSumFor rs c := by
    simp [weightedSumFor, hz]
  have hwt : totalWeightFor (rs ++ [r]) = totalWeightFor rs + effWeight r := by
    simp [totalWeightFor]
  refine ⟨hsum, hwt, effWeight_pos r, ?_⟩
  intro hpos
  have hW : 0 < totalWeightFor rs := by
    rcases rs with _ | ⟨x, t⟩
    · simp [weightedSumFor] at hpos
    · exact totalWeightFor_pos _ x (List.mem_cons_self x t)
  rw [hsum, hwt]
  have hWQ : (0 : ℚ) < (totalWeightFor rs : ℚ) := by exact_mod_cast hW
  have hwr : (1 : ℚ) ≤ (effWeight r : ℚ) := by exact_mod_cast effWeight_pos r
  have hWlt : (totalWeightFor rs : ℚ) <
      ((totalWeightFor rs + effWeight r : ℕ) : ℚ) := by
    push_cast
    linarith
  exact div_lt_div_of_pos_left hpos hWQ hWlt

/-- C10 witness: adding the incomplete record to a single batch of score 8
keeps the weighted sum at 8, raises the total weight to 2, and strictly
lowers the mean (from 8 to 4). -/
theorem aggregate_counts_incomplete_witness :
    weightedSumFor ([demoRec4 8 8 8 8 1] ++ [incompleteRec])
        Category.architecture = 8 ∧
    totalWeightFor ([demoRec4 8 8 8 8 1] ++ [incompleteRec]) = 2 ∧
    weightedSumFor ([demoRec4 8 8 8 8 1] ++ [incompleteRec])
          Category.architecture /
        (totalWeightFor ([demoRec4 8 8 8 8 1] ++ [incompleteRec]) : ℚ) <
      weightedSumFor [demoRec4 8 8 8 8 1] Category.architecture /
        (totalWeightFor [demoRec4 8 8 8 8 1] : ℚ) := by
  have h := aggregate_counts_incomplete [demoRec4 8 8 8 8 1] incompleteRec
    Category.architecture (Or.inl (by rfl))
  have h8 : (0 : ℚ) < weightedSumFor [demoRec4 8 8 8 8 1]
      Category.architecture := by
    norm_num [weightedSumFor, effScore, scoreLookup, effWeight, demoRec4,
      categoryField]
  refine ⟨h.1.trans ?_, h.2.1.trans ?_, h.2.2.2 h8⟩
  · norm_num [weightedSumFor, effScore, scoreLookup, effWeight, demoRec4,
      categoryField]
  · norm_num [totalWeightFor, effWeight, demoRec4, incompleteRec]

/-- C9 (amended): the per-batch schema check fails exactly when the record
lacks the project-summary section or the grades section — the four category
sub-sections and the overall sub-section are *not* tested at this stage (they
are only required of the aggregation template by `getValidBaseBatch`) — and a
record failing it is retried by the executor and then counted as a batch
failure with the schema error propagated. -/
theorem analyzeBatchCheck_spec (r : BatchRecord) :
    (analyzeBatchCheck r = Except.error schemaErrorMessage ↔
      r.project_summary = none ∨ r.grades = none) ∧
    (r.project_summary = none ∨ r.grades = none →
      analyzeBatchWithRetry 3 1000 2 (fun _ => analyzeBatchCheck r) =
        ⟨Except.error (some schemaErrorMessage), 3, [1000, 2000]⟩) := by
  have hiff : analyzeBatchCheck r = Except.error schemaErrorMessage ↔
      r.project_summary = none ∨ r.grades = none := by
    rcases hps : r.project_summary with _ | ps <;>
      rcases hg : r.grades with _ | g <;>
      simp [analyzeBatchCheck, hps, hg]
  refine ⟨hiff, fun hmiss => ?_⟩
  have herr := hiff.mpr hmiss
  simp [analyzeBatchWithRetry, retryGo, herr]

/-- C9 witness: the empty record fails the check with the schema error and,
threaded through the retrying executor, is attempted 3 times with waits 1000
and 2000 before the error is propagated. -/
theorem analyzeBatchCheck_spec_witness :
    analyzeBatchCheck ⟨none, none, none⟩ =
      Except.error schemaErrorMessage ∧
    analyzeBatchWithRetry 3 1000 2
        (fun _ => analyzeBatchCheck ⟨none, none, none⟩) =
      ⟨Except.error (some schemaErrorMessage), 3, [1000, 2000]⟩ :=
  ⟨(analyzeBatchCheck_spec ⟨none, none, none⟩).1.mpr (Or.inl rfl),
    (analyzeBatchCheck_spec ⟨none, none, none⟩).2 (Or.inl rfl)⟩

/-- C9 counterexample: a record with a project summary and a grades object
that lacks all four category sub-sections and the overall sub-section passes
the per-batch schema check — it is not rejected at this stage, although it
fails the completeness test used for template selection. -/
theorem analyzeBatchCheck_cex :
    analyzeBatchCheck
        ⟨some ⟨none, none, none, none, none⟩,
          some ⟨none, none, none, none, none⟩, none⟩ =
      Except.ok
        ⟨some ⟨none, none, none, none, none⟩,
          some ⟨none, none, none, none, none⟩, none⟩ ∧
    recordComplete
        ⟨some ⟨none, none, none, none, none⟩,
          some ⟨none, none, none, none, none⟩, none⟩ = false :=
  ⟨rfl, rfl⟩

/-- C8: on the flash model the flat example behaves as claimed — prompt
1,000,000 and completion 200,000 tokens at $0.30/$2.50 per million cost $0.30
and $0.50 — but for an unknown model name the fallback entry is consulted in
the *tiered* branch, whose rate fields the flat fallback entry lacks, so the
costs are `NaN` (modelled `none`) instead of `tokens / 1e6 × rate`. -/
theorem calculateCost_behavior :
    (calculateCost ⟨1000000, 200000, 1200000⟩
        "gemini-2.5-flash").input_cost_usd = some (30 / 100) ∧
    (calculateCost ⟨1000000, 200000, 1200000⟩
        "gemini-2.5-flash").output_cost_usd = some (1 / 2) ∧
    (calculateCost ⟨1000000, 200000, 1200000⟩
        "gpt-4").input_cost_usd = none ∧
    (calculateCost ⟨1000000, 200000, 1200000⟩
        "gpt-4").output_cost_usd = none ∧
    (calculateCost ⟨1000000, 200000, 1200000⟩
        "gpt-4").total_cost_usd = none := by
  have hne1 : ("gpt-4" : String) ≠ "gemini-2.5-flash" := by decide
  have hne2 : ("gpt-4" : String) ≠ "gemini-2.5-pro" := by decide
  refine ⟨?_, ?_, ?_, ?_, ?_⟩ <;>
    norm_num [calculateCost, pricingFor, flashPricing, proPricing, hne1, hne2]

/-- Unfolding equation for `commaSafe` on a cons cell. -/
theorem commaSafe_cons (a : Char) (rest : List Char) :
    commaSafe (a :: rest) =
      ((if a = ',' then
          match rest with
          | [] => false
          | b :: _ => !(isJsWs b) && !(b = '}') && !(b = ']')
        else true) && commaSafe rest) := rfl

/-- A list without commas is comma-safe. -/
theorem commaSafe_of_no_comma : ∀ l : List Char,
    (∀ c ∈ l, ¬ c = ',') → commaSafe l = true
  | [] => fun _ => rfl
  | a :: rest => fun h => by
    have ha : ¬ a = ',' := h a (List.mem_cons_self a rest)
    rw [commaSafe_cons]
    simp only [ha, if_false, Bool.true_and]
    exact commaSafe_of_no_comma rest fun c hc => h c (List.mem_cons_of_mem a hc)

/-- Comma safety is preserved under concatenation (a comma-safe list never
ends in a comma, so no comma's successor crosses the boundary). -/
theorem commaSafe_append : ∀ l1 l2 : List Char,
    commaSafe l1 = true → commaSafe l2 = true → commaSafe (l1 ++ l2) = true
  | [], l2 => fun _ h2 => h2
  | a :: rest, l2 => fun h1 h2 => by
    rw [commaSafe_cons, Bool.and_eq_true] at h1
    obtain ⟨ha, hrest⟩ := h1
    rw [List.cons_append, commaSafe_cons, Bool.and_eq_true]
    refine ⟨?_, commaSafe_append rest l2 hrest h2⟩
    by_cases hc : a = ','
    · rcases rest with _ | ⟨b, t⟩
      · simp [hc] at ha
      · simpa [hc, List.cons_append] using ha
    · simp [hc]

/-- Unfolding equation for `stripTrailingCommas` on a cons cell. -/
theorem stripTrailingCommas_cons (c : Char) (rest : List Char) :
    stripTrailingCommas (c :: rest) =
      if c = ',' && headCloses (rest.dropWhile isJsWs) then
        stripTrailingCommas rest
      else c :: stripTrailingCommas rest := rfl

/-- The comma-strip scan passes a comma-safe prefix through unchanged. -/
theorem stripTrailingCommas_append : ∀ l s : List Char,
    commaSafe l = true →
    stripTrailingCommas (l ++ s) = l ++ stripTrailingCommas s
  | [], s => fun _ => rfl
  | a :: rest, s => fun h => by
    rw [commaSafe_cons, Bool.and_eq_true] at h
    obtain ⟨ha, hrest⟩ := h
    rw [List.cons_append, stripTrailingCommas_cons]
    by_cases hc : a = ','
    · subst hc
      rcases rest with _ | ⟨b, t⟩
      · simp at ha
      · simp only [if_pos] at ha
        simp only [Bool.and_eq_true, Bool.not_eq_eq_eq_not, Bool.not_true,
          decide_eq_false_iff_not] at ha
        have hdrop : ((b :: t) ++ s).dropWhile isJsWs = b :: (t ++ s) := by
          rw [List.cons_append, List.dropWhile_cons, ha.1.1]
          simp
        rw [hdrop]
        have hhc : headCloses (b :: (t ++ s)) = false := by
          simp only [headCloses, Bool.or_eq_false_iff,
            decide_eq_false_iff_not]
          exact ⟨ha.1.2, ha.2⟩
        rw [hhc]
        simp only [Bool.and_false, Bool.false_eq_true, if_false]
        rw [stripTrailingCommas_append (b :: t) s hrest]
        simp
    · have hcf : (decide (a = ',')) = false := by simp [hc]
      simp only [hcf, Bool.false_and, Bool.false_eq_true, if_false]
      rw [stripTrailingCommas_append rest s hrest]
      simp

/-- The digit characters are exactly 48..57 in code-point order. -/
theorem digitChar_toNat (d : Nat) (h : d < 10) :
    (digitChar d).toNat = d + 48 := by
  interval_cases d <;> decide

/-- Digit characters scan back to their value. -/
theorem digitChar_val (d : Nat) (h : d < 10) :
    (digitChar d).toNat - 48 = d := by
  rw [digitChar_toNat d h]
  omega

/-- Digit characters satisfy `Char.isDigit`. -/
theorem digitChar_isDigit (d : Nat) (h : d < 10) :
    (digitChar d).isDigit = true := by
  interval_cases d <;> decide

/-- The decimal rendering of a number is never empty. -/
theorem natToChars_ne_nil (n : Nat) : natToChars n ≠ [] := by
  rw [natToChars]
  by_cases h : n < 10 <;> simp [h]

/-- Every character of a decimal rendering is a digit. -/
theorem natToChars_digits (n : Nat) :
    ∀ c ∈ natToChars n, c.isDigit = true := by
  rw [natToChars]
  by_cases h : n < 10
  · simp only [h, dif_pos]
    intro c hc
    simp only [List.mem_singleton] at hc
    subst hc
    exact digitChar_isDigit n h
  · simp only [h, dif_neg, not_false_iff]
    intro c hc
    rcases List.mem_append.mp hc with hc | hc
    · exact natToChars_digits (n / 10) c hc
    · simp only [List.mem_singleton] at hc
      subst hc
      exact digitChar_isDigit (n % 10) (Nat.mod_lt n (by omega))
decreasing_by exact Nat.div_lt_self (by omega) (by omega)

/-- Folding the scanning step over a decimal rendering shifts the accumulator
by the rendered length and adds the value. -/
theorem natToChars_foldl (n : Nat) :
    ∀ a : Nat,
      List.foldl (fun acc c => 10 * acc + (c.toNat - 48)) a (natToChars n) =
        a * 10 ^ (natToChars n).length + n := by
  intro a
  rw [natToChars]
  by_cases h : n < 10
  · simp only [h, dif_pos, List.foldl_cons, List.foldl_nil,
      List.length_singleton, pow_one, digitChar_val n h]
    omega
  · simp only [h, dif_neg, not_false_iff, List.foldl_append,
      List.foldl_cons, List.foldl_nil, List.length_append,
      List.length_singleton]
    rw [natToChars_foldl (n / 10) a]
    rw [digitChar_val (n % 10) (Nat.mod_lt n (by omega))]
    have hdm : 10 * (n / 10) + n % 10 = n := Nat.div_add_mod n 10
    rw [pow_succ]
    ring_nf
    omega
decreasing_by exact Nat.div_lt_self (by omega) (by omega)

/-- Scanning a decimal rendering recovers the number. -/
theorem ofDigits_natToChars (n : Nat) : ofDigits (natToChars n) = n := by
  have h := natToChars_foldl n 0
  simpa [ofDigits] using h

/-- A digit character is none of the special characters the parser and the
repair scanners dispatch on. -/
theorem isDigit_facts (c : Char) (h : c.isDigit = true) :
    ¬ c = '"' ∧ ¬ c = '[' ∧ ¬ c = '{' ∧ ¬ c = '}' ∧ ¬ c = ']' ∧
      ¬ c = ',' ∧ ¬ c = '\\' ∧ isJsWs c = false := by
  simp only [Char.isDigit] at h
  rw [Bool.and_eq_true, decide_eq_true_iff, decide_eq_true_iff] at h
  have h1 : 48 ≤ c.toNat := h.1
  have h2 : c.toNat ≤ 57 := h.2
  refine ⟨?_, ?_, ?_, ?_, ?_, ?_, ?_, ?_⟩
  · intro hc; subst hc; simp at h1 h2
  · intro hc; subst hc; simp at h1 h2
  · intro hc; subst hc; simp at h1 h2
  · intro hc; subst hc; simp at h1 h2
  · intro hc; subst hc; simp at h1 h2
  · intro hc; subst hc; simp at h1 h2
  · intro hc; subst hc; simp at h1 h2
  · simp only [isJsWs, Bool.or_eq_false_iff, decide_eq_false_iff_not]
    refine ⟨⟨⟨?_, ?_⟩, ?_⟩, ?_⟩ <;>
      (intro hc; subst hc; simp at h1 h2)

/-- TakeWhile over a concatenation whose prefix all satisfies the predicate
and whose boundary character fails it. -/
theorem takeWhile_append_all (p : Char → Bool) :
    ∀ (l1 : List Char) (c : Char) (l2 : List Char),
      (∀ x ∈ l1, p x = true) → p c = false →
      (l1 ++ c :: l2).takeWhile p = l1
  | [], c, l2 => fun _ hc => by simp [List.takeWhile_cons, hc]
  | x :: l1, c, l2 => fun h hc => by
    have hx : p x = true := h x (List.mem_cons_self x l1)
    simp only [List.cons_append, List.takeWhile_cons, hx, if_pos]
    rw [takeWhile_append_all p l1 c l2
      (fun y hy => h y (List.mem_cons_of_mem x hy)) hc]

/-- TakeWhile over a list all of whose characters satisfy the predicate. -/
theorem takeWhile_all (p : Char → Bool) :
    ∀ l : List Char, (∀ x ∈ l, p x = true) → l.takeWhile p = l
  | [] => fun _ => rfl
  | x :: l => fun h => by
    have hx : p x = true := h x (List.mem_cons_self x l)
    simp only [List.takeWhile_cons, hx, if_pos]
    rw [takeWhile_all p l fun y hy => h y (List.mem_cons_of_mem x hy)]

/-- What membership in a safe string gives character by character. -/
theorem safeChar_spec (c : Char) (h : safeChar c = true) :
    ¬ c = '"' ∧ ¬ c = '\\' ∧ ¬ c = ',' ∧ ¬ c = '}' ∧ ¬ c = ']' := by
  simp only [safeChar, Bool.and_eq_true, decide_eq_true_iff,
    Bool.not_eq_eq_eq_not, Bool.not_true, decide_eq_false_iff_not] at h
  obtain ⟨⟨⟨⟨⟨h32, hq⟩, hb⟩, hc⟩, hbr⟩, hbk⟩ := h
  exact ⟨hq, hb, hc, hbr, hbk⟩

/-- The head survives prepending the list to anything. -/
theorem firstOk_append (l1 l2 : List Char) (h : firstOk l1 = true) :
    firstOk (l1 ++ l2) = true := by
  rcases l1 with _ | ⟨c, t⟩
  · simp [firstOk] at h
  · simpa [firstOk] using h

/-- A comma prepended to a comma-safe list with an acceptable head is
comma-safe. -/
theorem commaSafe_comma_cons (l : List Char) (h1 : firstOk l = true)
    (h2 : commaSafe l = true) : commaSafe (',' :: l) = true := by
  rcases l with _ | ⟨b, t⟩
  · simp [firstOk] at h1
  · rw [commaSafe_cons]
    simp only [if_pos, Bool.and_eq_true]
    simp only [firstOk, Bool.and_eq_true] at h1
    exact ⟨by simp [h1.1.1, h1.1.2, h1.2], h2⟩

/-- Unfolding equation for `firstOk` on a cons cell. -/
theorem firstOk_cons (c : Char) (l : List Char) :
    firstOk (c :: l) = (!(isJsWs c) && !(c = '}') && !(c = ']')) := rfl

/-- Prepending a non-comma preserves comma safety. -/
theorem commaSafe_cons_of_ne (a : Char) (l : List Char) (ha : ¬ a = ',')
    (h : commaSafe l = true) : commaSafe (a :: l) = true := by
  rw [commaSafe_cons]
  simp [ha, h]

/-- Safe strings contain no comma. -/
theorem safeStr_no_comma (s : String) (h : safeString s = true) :
    ∀ c ∈ s.data, ¬ c = ',' := by
  rw [safeString, List.all_eq_true] at h
  exact fun c hc => (safeChar_spec c (by simpa using h c hc)).2.2.1

/-- Safe strings contain no backslash. -/
theorem safeStr_no_bs (s : String) (h : safeString s = true) :
    ∀ c ∈ s.data, ¬ c = '\\' := by
  rw [safeString, List.all_eq_true] at h
  exact fun c hc => (safeChar_spec c (by simpa using h c hc)).2.1

mutual

/-- Serialized safe values are comma-safe, start with an acceptable
character, and contain no backslash. -/
theorem serializeChars_facts : ∀ (v : Json), safeJson v = true →
    commaSafe (serializeChars v) = true ∧
      firstOk (serializeChars v) = true ∧
      ∀ c ∈ serializeChars v, ¬ c = '\\'
  | Json.str s, h => by
    simp only [safeJson] at h
    simp only [serializeChars]
    refine ⟨?_, ?_, ?_⟩
    · exact commaSafe_append _ _
        (commaSafe_cons_of_ne '"' _ (by decide)
          (commaSafe_of_no_comma _ (safeStr_no_comma s h)))
        (by decide)
    · exact firstOk_append _ _ (by rw [firstOk_cons]; decide)
    · intro c hc
      simp only [List.cons_append, List.mem_cons, List.mem_append,
        List.mem_singleton, List.not_mem_nil, or_false] at hc
      rcases hc with hc | hc | hc
      · subst hc; decide
      · exact safeStr_no_bs s h c hc
      · subst hc; decide
  | Json.num n, _ => by
    simp only [serializeChars]
    have hd := natToChars_digits n
    refine ⟨?_, ?_, ?_⟩
    · exact commaSafe_of_no_comma _ fun c hc =>
        (isDigit_facts c (hd c hc)).2.2.2.2.2.1
    · rcases hnt : natToChars n with _ | ⟨d, rest⟩
      · exact absurd hnt (natToChars_ne_nil n)
      · have hdd : d.isDigit = true := by
          have hmem : d ∈ natToChars n := by
            rw [hnt]; exact List.mem_cons_self d rest
          exact hd d hmem
        obtain ⟨_, _, _, hcb, hrb, _, _, hws⟩ := isDigit_facts d hdd
        simp [firstOk, hws, hcb, hrb]
    · exact fun c hc => (isDigit_facts c (hd c hc)).2.2.2.2.2.2.1
  | Json.arr [], _ => ⟨by decide, by decide, by decide⟩
  | Json.arr (v :: vs), h => by
    simp only [safeJson] at h
    have hE := serializeElems_facts (v :: vs) h (by simp)
    simp only [serializeChars]
    refine ⟨?_, ?_, ?_⟩
    · exact commaSafe_append _ _
        (commaSafe_cons_of_ne '[' _ (by decide) hE.1) (by decide)
    · exact firstOk_append _ _ (by rw [firstOk_cons]; decide)
    · intro c hc
      simp only [List.cons_append, List.mem_cons, List.mem_append,
        List.mem_singleton, List.not_mem_nil, or_false] at hc
      rcases hc with hc | hc | hc
      · subst hc; decide
      · exact hE.2.2 c hc
      · subst hc; decide
  | Json.obj [], _ => ⟨by decide, by decide, by decide⟩
  | Json.obj (f :: fs), h => by
    simp only [safeJson] at h
    have hF := serializeFieldsChars_facts (f :: fs) h (by simp)
    simp only [serializeChars]
    refine ⟨?_, ?_, ?_⟩
    · exact commaSafe_append _ _
        (commaSafe_cons_of_ne '{' _ (by decide) hF.1) (by decide)
    · exact firstOk_append _ _ (by rw [firstOk_cons]; decide)
    · intro c hc
      simp only [List.cons_append, List.mem_cons, List.mem_append,
        List.mem_singleton, List.not_mem_nil, or_false] at hc
      rcases hc with hc | hc | hc
      · subst hc; decide
      · exact hF.2.2 c hc
      · subst hc; decide

/-- Serialized non-empty element lists are comma-safe, start acceptably, and
contain no backslash. -/
theorem serializeElems_facts : ∀ (vs : List Json), safeJsonList vs = true →
    vs ≠ [] →
    commaSafe (serializeElems vs) = true ∧
      firstOk (serializeElems vs) = true ∧
      ∀ c ∈ serializeElems vs, ¬ c = '\\'
  | [], _, hne => absurd rfl hne
  | [v], h, _ => by
    simp only [safeJsonList, Bool.and_eq_true] at h
    simpa [serializeElems] using serializeChars_facts v h.1
  | v :: w :: vs, h, _ => by
    simp only [safeJsonList, Bool.and_eq_true] at h
    have hv := serializeChars_facts v h.1
    have hE := serializeElems_facts (w :: vs)
      (by simp [safeJsonList, h.2.1, h.2.2]) (by simp)
    simp only [serializeElems]
    refine ⟨?_, firstOk_append _ _ hv.2.1, ?_⟩
    · exact commaSafe_append _ _ hv.1
        (commaSafe_comma_cons _ hE.2.1 hE.1)
    · intro c hc
      simp only [List.mem_append, List.mem_cons] at hc
      rcases hc with hc | hc | hc
      · exact hv.2.2 c hc
      · subst hc; decide
      · exact hE.2.2 c hc

/-- Serialized non-empty field lists are comma-safe, start acceptably, and
contain no backslash. -/
theorem serializeFieldsChars_facts : ∀ (fs : List (String × Json)),
    safeJsonFields fs = true → fs ≠ [] →
    commaSafe (serializeFieldsChars fs) = true ∧
      firstOk (serializeFieldsChars fs) = true ∧
      ∀ c ∈ serializeFieldsChars fs, ¬ c = '\\'
  | [], _, hne => absurd rfl hne
  | [(k, v)], h, _ => by
    simp only [safeJsonFields, Bool.and_eq_true] at h
    have hv := serializeChars_facts v h.1.2
    simp only [serializeFieldsChars]
    refine ⟨?_, ?_, ?_⟩
    · exact commaSafe_append _ _
        (commaSafe_cons_of_ne '"' _ (by decide)
          (commaSafe_of_no_comma _ (safeStr_no_comma k h.1.1)))
        (commaSafe_cons_of_ne '"' _ (by decide)
          (commaSafe_cons_of_ne ':' _ (by decide) hv.1))
    · exact firstOk_append _ _ (by rw [firstOk_cons]; decide)
    · intro c hc
      simp only [List.mem_append, List.mem_cons] at hc
      rcases hc with (hc | hc) | hc | hc | hc
      · subst hc; decide
      · exact safeStr_no_bs k h.1.1 c hc
      · subst hc; decide
      · subst hc; decide
      · exact hv.2.2 c hc
  | (k, v) :: g :: fs, h, _ => by
    simp only [safeJsonFields, Bool.and_eq_true] at h
    have hv := serializeChars_facts v h.1.2
    have hF := serializeFieldsChars_facts (g :: fs)
      (by simp [safeJsonFields, h.2]) (by simp)
    simp only [serializeFieldsChars]
    refine ⟨?_, ?_, ?_⟩
    · refine commaSafe_append _ _ ?_
        (commaSafe_comma_cons _ hF.2.1 hF.1)
      exact commaSafe_append _ _
        (commaSafe_cons_of_ne '"' _ (by decide)
          (commaSafe_of_no_comma _ (safeStr_no_comma k h.1.1)))
        (commaSafe_cons_of_ne '"' _ (by decide)
          (commaSafe_cons_of_ne ':' _ (by decide) hv.1))
    · exact firstOk_append _ _ (firstOk_append _ _
        (by rw [firstOk_cons]; decide))
    · intro c hc
      simp only [List.mem_append, List.mem_cons] at hc
      rcases hc with ((hc | hc) | hc | hc | hc) | hc | hc
      · subst hc; decide
      · exact safeStr_no_bs k h.1.1 c hc
      · subst hc; decide
      · subst hc; decide
      · exact hv.2.2 c hc
      · subst hc; decide
      · exact hF.2.2 c hc

end

/-- The escape-fix scan is the identity on backslash-free text. -/
theorem escFixGo_no_bs (t : Char) : ∀ (fuel : Nat) (l : List Char),
    (∀ c ∈ l, ¬ c = '\\') → escFixGo t fuel l = l
  | 0, _, _ => rfl
  | _ + 1, [], _ => rfl
  | _ + 1, [_], _ => rfl
  | _ + 1, [_, _], _ => rfl
  | fuel + 1, a :: b :: c :: rest, h => by
    have hb : ¬ b = '\\' := h b (by simp)
    have hcond : (!(a = '\\') && b = '\\' && c = t) = false := by
      simp [hb]
    simp only [escFixGo, hcond, Bool.false_eq_true, if_false]
    rw [escFixGo_no_bs t fuel (b :: c :: rest)
      (fun x hx => h x (List.mem_cons_of_mem a hx))]

/-- The escape-fix pass is the identity on backslash-free text. -/
theorem escFixOne_no_bs (t : Char) (l : List Char)
    (h : ∀ c ∈ l, ¬ c = '\\') : escFixOne t l = l :=
  escFixGo_no_bs t l.length l h

/-- The re-clip step is the identity on a document that starts with `{` and
ends with `}`. -/
theorem clipBraces_id (l : List Char) :
    clipBraces (('{' :: l) ++ ['}']) = ('{' :: l) ++ ['}'] := by
  have hfi : (('{' :: l) ++ ['}']).findIdx? (fun c => c = '{') = some 0 := by
    rw [List.cons_append, List.findIdx?_cons]
    simp
  have hrev : (('{' :: l) ++ ['}']).reverse = '}' :: ('{' :: l).reverse := by
    rw [List.reverse_append]
    simp
  have hri : ((('{' :: l) ++ ['}']).reverse.findIdx?
      (fun c => c = '}')) = some 0 := by
    rw [hrev, List.findIdx?_cons]
    simp
  simp only [clipBraces, hfi, hri]
  have hlen : (('{' :: l) ++ ['}']).length = l.length + 2 := by simp
  rw [hlen]
  have h2 : l.length + 2 - 1 - 0 = l.length + 1 := by omega
  rw [h2]
  simp only [Nat.succ_pos, if_pos, List.drop_zero, Nat.lt_add_one_iff]
  rw [List.take_of_length_le (by simp)]
  simp

mutual

/-- Parsing a serialized safe value with enough fuel consumes exactly it,
provided the remainder does not start with a digit. -/
theorem parseJson_serialize : ∀ (v : Json) (fuel : Nat) (rest : List Char),
    safeJson v = true → (serializeChars v).length ≤ fuel →
    (∀ c, rest.head? = some c → c.isDigit = false) →
    parseJson fuel (serializeChars v ++ rest) = some (v, rest)
  | Json.str s, fuel, rest, hsafe, hfuel, _ => by
    obtain ⟨sd⟩ := s
    simp only [safeJson] at hsafe
    simp only [serializeChars] at hfuel ⊢
    rcases fuel with _ | f
    · exfalso
      simp only [List.cons_append, List.length_cons, List.length_append,
        Nat.le_zero] at hfuel
      omega
    · have hq : ∀ x ∈ sd, (fun d => !(d = '"')) x = true := by
        intro x hx
        rw [safeString, List.all_eq_true] at hsafe
        have := (safeChar_spec x (by simpa using hsafe x hx)).1
        simp [this]
      have hcs : (('"' :: sd) ++ ['"']) ++ rest =
          '"' :: (sd ++ '"' :: rest) := by simp
      rw [hcs]
      simp only [parseJson, if_pos]
      rw [takeWhile_append_all _ sd '"' rest hq (by decide)]
      rw [List.drop_left]
      simp
  | Json.num n, fuel, rest, _, hfuel, hrest => by
    simp only [serializeChars] at hfuel ⊢
    rcases hnt : natToChars n with _ | ⟨d, ds⟩
    · exact absurd hnt (natToChars_ne_nil n)
    rcases fuel with _ | f
    · exfalso
      rw [hnt] at hfuel
      simp at hfuel
    have hd : d.isDigit = true :=
      natToChars_digits n d (by rw [hnt]; exact List.mem_cons_self d ds)
    obtain ⟨hq, hlb, hob, _, _, _, _, _⟩ := isDigit_facts d hd
    have hall : ∀ x ∈ d :: ds, x.isDigit = true := by
      intro x hx
      exact natToChars_digits n x (by rw [hnt]; exact hx)
    have hofd : ofDigits (d :: ds) = n := by
      rw [← hnt]
      exact ofDigits_natToChars n
    have hcs : ((d :: ds) ++ rest) = d :: (ds ++ rest) := by simp
    rw [hcs]
    simp only [parseJson]
    rw [if_neg hq, if_neg hlb, if_neg hob, if_pos hd]
    rcases rest with _ | ⟨r0, rr⟩
    · simp only [List.append_nil]
      rw [takeWhile_all Char.isDigit (d :: ds) hall, hofd,
        List.drop_length]
    · have hr0 : r0.isDigit = false := hrest r0 rfl
      rw [show d :: (ds ++ r0 :: rr) = (d :: ds) ++ r0 :: rr by simp]
      rw [takeWhile_append_all Char.isDigit (d :: ds) r0 rr hall hr0,
        List.drop_left, hofd]
  | Json.arr [], fuel, rest, _, hfuel, _ => by
    simp only [serializeChars, serializeElems] at hfuel ⊢
    rcases fuel with _ | f
    · exfalso
      simp at hfuel
    · simp [parseJson]
  | Json.arr (v :: vs), fuel, rest, hsafe, hfuel, _ => by
    simp only [safeJson] at hsafe
    simp only [serializeChars] at hfuel ⊢
    rcases fuel with _ | f
    · exfalso
      simp only [List.cons_append, List.length_cons, List.length_append,
        Nat.le_zero] at hfuel
      omega
    have hE := serializeElems_facts (v :: vs) hsafe (by simp)
    have hPE := parseElems_serialize (v :: vs) f rest hsafe (by simp) (by
      simp only [List.cons_append, List.length_cons, List.length_append,
        List.length_singleton] at hfuel
      omega)
    rcases hE2 : serializeElems (v :: vs) with _ | ⟨e, es⟩
    · rw [hE2] at hE
      simp [firstOk] at hE
    have he : ¬ e = ']' := by
      have hfo := hE.2.1
      rw [hE2, firstOk_cons] at hfo
      simp only [Bool.and_eq_true, Bool.not_eq_eq_eq_not, Bool.not_true,
        decide_eq_false_iff_not] at hfo
      exact hfo.2
    have hcs : (('[' :: e :: es) ++ [']']) ++ rest =
        '[' :: (e :: (es ++ ']' :: rest)) := by simp
    rw [hcs]
    rw [hE2, List.cons_append] at hPE
    simp only [parseJson]
    split
    · rename_i heq
      exact absurd heq (by decide)
    · split
      · split
        · rename_i rest2 heq
          exfalso
          rw [List.cons.injEq] at heq
          exact he heq.1
        · rw [hPE]
      · rename_i hne
        exact absurd (by trivial) hne
  | Json.obj [], fuel, rest, _, hfuel, _ => by
    simp only [serializeChars, serializeFieldsChars] at hfuel ⊢
    rcases fuel with _ | f
    · exfalso
      simp at hfuel
    · simp [parseJson]
  | Json.obj (g :: fs), fuel, rest, hsafe, hfuel, _ => by
    simp only [safeJson] at hsafe
    simp only [serializeChars] at hfuel ⊢
    rcases fuel with _ | f
    · exfalso
      simp only [List.cons_append, List.length_cons, List.length_append,
        Nat.le_zero] at hfuel
      omega
    have hF := serializeFieldsChars_facts (g :: fs) hsafe (by simp)
    have hPF := parseFields_serialize (g :: fs) f rest hsafe (by simp) (by
      simp only [List.cons_append, List.length_cons, List.length_append,
        List.length_singleton] at hfuel
      omega)
    rcases hF2 : serializeFieldsChars (g :: fs) with _ | ⟨e, es⟩
    · rw [hF2] at hF
      simp [firstOk] at hF
    have he : ¬ e = '}' := by
      have hfo := hF.2.1
      rw [hF2, firstOk_cons] at hfo
      simp only [Bool.and_eq_true, Bool.not_eq_eq_eq_not, Bool.not_true,
        decide_eq_false_iff_not] at hfo
      exact hfo.1.2
    have hcs : (('{' :: e :: es) ++ ['}']) ++ rest =
        '{' :: (e :: (es ++ '}' :: rest)) := by simp
    rw [hcs]
    rw [hF2, List.cons_append] at hPF
    simp only [parseJson]
    split
    · rename_i heq
      exact absurd heq (by decide)
    · split
      · rename_i heq
        exact absurd heq (by decide)
      · split
        · split
          · rename_i rest2 heq
            exfalso
            rw [List.cons.injEq] at heq
            exact he heq.1
          · rw [hPF]
        · rename_i hne
          exact absurd (by trivial) hne

/-- Parsing a serialized non-empty element list followed by the closing
bracket returns the elements. -/
theorem parseElems_serialize : ∀ (vs : List Json) (fuel : Nat)
    (rest : List Char), safeJsonList vs = true → vs ≠ [] →
    (serializeElems vs).length + 1 ≤ fuel →
    parseElems fuel (serializeElems vs ++ ']' :: rest) = some (vs, rest)
  | [], _, _, _, hne, _ => absurd rfl hne
  | [v], fuel, rest, hsafe, _, hfuel => by
    simp only [safeJsonList, Bool.and_eq_true] at hsafe
    simp only [serializeElems] at hfuel ⊢
    rcases fuel with _ | f
    · exfalso
      simp at hfuel
    have hPJ := parseJson_serialize v f (']' :: rest) hsafe.1
      (by omega) (by intro c hc; simp at hc; subst hc; decide)
    simp only [parseElems]
    rw [hPJ]
    rfl
  | v :: w :: vs, fuel, rest, hsafe, _, hfuel => by
    simp only [safeJsonList, Bool.and_eq_true] at hsafe
    simp only [serializeElems] at hfuel ⊢
    rcases fuel with _ | f
    · exfalso
      simp at hfuel
    simp only [List.length_append, List.length_cons] at hfuel
    have hPJ := parseJson_serialize v f
      (',' :: (serializeElems (w :: vs) ++ ']' :: rest)) hsafe.1
      (by omega) (by intro c hc; simp at hc; subst hc; decide)
    have hPE := parseElems_serialize (w :: vs) f rest
      (by simp [safeJsonList, hsafe.2.1, hsafe.2.2]) (by simp) (by omega)
    have hcs : (serializeChars v ++ ',' :: serializeElems (w :: vs)) ++
        ']' :: rest =
        serializeChars v ++ (',' :: (serializeElems (w :: vs) ++
          ']' :: rest)) := by simp
    rw [hcs]
    simp only [parseElems]
    rw [hPJ]
    show (match parseElems f (serializeElems (w :: vs) ++ ']' :: rest) with
      | some (vs2, rest3) => some (v :: vs2, rest3)
      | none => none) = some (v :: w :: vs, rest)
    rw [hPE]

/-- Parsing a serialized non-empty field list followed by the closing brace
returns the fields. -/
theorem parseFields_serialize : ∀ (fs : List (String × Json)) (fuel : Nat)
    (rest : List Char), safeJsonFields fs = true → fs ≠ [] →
    (serializeFieldsChars fs).length + 1 ≤ fuel →
    parseFields fuel (serializeFieldsChars fs ++ '}' :: rest) =
      some (fs, rest)
  | [], _, _, _, hne, _ => absurd rfl hne
  | [(k, v)], fuel, rest, hsafe, _, hfuel => by
    obtain ⟨kd⟩ := k
    simp only [safeJsonFields, Bool.and_eq_true] at hsafe
    simp only [serializeFieldsChars] at hfuel ⊢
    rcases fuel with _ | f
    · exfalso
      simp at hfuel
    simp only [List.cons_append, List.length_cons, List.length_append]
      at hfuel
    have hq : ∀ x ∈ kd, (fun d => !(d = '"')) x = true := by
      intro x hx
      have hk := hsafe.1.1
      rw [safeString, List.all_eq_true] at hk
      have := (safeChar_spec x (by simpa using hk x hx)).1
      simp [this]
    have hPJ := parseJson_serialize v f ('}' :: rest) hsafe.1.2
      (by omega) (by intro c hc; simp at hc; subst hc; decide)
    have hcs : (('"' :: kd) ++ '"' :: ':' :: serializeChars v) ++
        '}' :: rest =
        '"' :: (kd ++ '"' :: (':' :: (serializeChars v ++ '}' :: rest)))
        := by simp
    rw [hcs]
    simp only [parseFields]
    rw [takeWhile_append_all _ kd '"'
      (':' :: (serializeChars v ++ '}' :: rest)) hq (by decide)]
    rw [List.drop_left]
    show (match parseJson f (serializeChars v ++ '}' :: rest) with
      | some (v2, rest3) =>
        match rest3 with
        | ',' :: rest4 =>
          match parseFields f rest4 with
          | some (fs2, rest5) => some ((String.mk kd, v2) :: fs2, rest5)
          | none => none
        | '}' :: rest4 => some ([(String.mk kd, v2)], rest4)
        | _ => none
      | none => none) = some ([(String.mk kd, v)], rest)
    rw [hPJ]
    rfl
  | (k, v) :: g :: fs, fuel, rest, hsafe, _, hfuel => by
    obtain ⟨kd⟩ := k
    simp only [safeJsonFields, Bool.and_eq_true] at hsafe
    simp only [serializeFieldsChars] at hfuel ⊢
    rcases fuel with _ | f
    · exfalso
      simp at hfuel
    simp only [List.cons_append, List.append_assoc, List.length_cons,
      List.length_append] at hfuel
    have hq : ∀ x ∈ kd, (fun d => !(d = '"')) x = true := by
      intro x hx
      have hk := hsafe.1.1
      rw [safeString, List.all_eq_true] at hk
      have := (safeChar_spec x (by simpa using hk x hx)).1
      simp [this]
    have hPJ := parseJson_serialize v f
      (',' :: (serializeFieldsChars (g :: fs) ++ '}' :: rest)) hsafe.1.2
      (by omega) (by intro c hc; simp at hc; subst hc; decide)
    have hPF := parseFields_serialize (g :: fs) f rest
      (by simp [safeJsonFields, hsafe.2]) (by simp) (by omega)
    have hcs : ((('"' :: kd) ++ '"' :: ':' :: serializeChars v) ++
        ',' :: serializeFieldsChars (g :: fs)) ++ '}' :: rest =
        '"' :: (kd ++ '"' :: (':' :: (serializeChars v ++
          ',' :: (serializeFieldsChars (g :: fs) ++ '}' :: rest)))) := by
      simp
    rw [hcs]
    simp only [parseFields]
    rw [takeWhile_append_all _ kd '"' _ hq (by decide)]
    rw [List.drop_left]
    show (match parseJson f (serializeChars v ++
        ',' :: (serializeFieldsChars (g :: fs) ++ '}' :: rest)) with
      | some (v2, rest3) =>
        match rest3 with
        | ',' :: rest4 =>
          match parseFields f rest4 with
          | some (fs2, rest5) => some ((String.mk kd, v2) :: fs2, rest5)
          | none => none
        | '}' :: rest4 => some ([(String.mk kd, v2)], rest4)
        | _ => none
      | none => none) = some ((String.mk kd, v) :: g :: fs, rest)
    rw [hPJ]
    show (match parseFields f (serializeFieldsChars (g :: fs) ++
        '}' :: rest) with
      | some (fs2, rest5) => some ((String.mk kd, v) :: fs2, rest5)
      | none => none) = some ((String.mk kd, v) :: g :: fs, rest)
    rw [hPF]

end

/-- C7: for every record whose strings (keys and values) contain only
printable characters other than double quote, backslash, comma, closing brace
and closing bracket, serializing it with exactly one trailing separator
(comma) inserted immediately before the closing brace and passing the result
through the stage-3 repair (attemptJsonRepair) yields text that parses back
to the original record.  (The restriction on string contents is necessary:
the comma-strip pass of the repair also fires inside string literals, see the
counterexample.) -/
theorem attemptJsonRepair_roundtrip (fs : List (String × Json))
    (h : safeJson (Json.obj fs) = true) :
    parseJsonText (attemptJsonRepair (String.mk (serializeTrailing fs))) =
      some (Json.obj fs) := by
  have hsf : safeJsonFields fs = true := by simpa [safeJson] using h
  have hcs : commaSafe ('{' :: serializeFieldsChars fs) = true := by
    rcases fs with _ | ⟨f, fs⟩
    · decide
    · exact commaSafe_cons_of_ne '{' _ (by decide)
        (serializeFieldsChars_facts (f :: fs) hsf (by simp)).1
  have hstrip : stripTrailingCommas (serializeTrailing fs) =
      serializeChars (Json.obj fs) := by
    rw [serializeTrailing, stripTrailingCommas_append _ _ hcs]
    rfl
  have hnb : ∀ c ∈ serializeChars (Json.obj fs), ¬ c = '\\' :=
    (serializeChars_facts (Json.obj fs) h).2.2
  have hrep : attemptJsonRepair (String.mk (serializeTrailing fs)) =
      String.mk (serializeChars (Json.obj fs)) := by
    simp only [attemptJsonRepair]
    rw [hstrip, escFixOne_no_bs 'n' _ hnb, escFixOne_no_bs 't' _ hnb]
    rw [show serializeChars (Json.obj fs) =
      ('{' :: serializeFieldsChars fs) ++ ['}'] from rfl]
    rw [clipBraces_id]
  have hP := parseJson_serialize (Json.obj fs)
      ((serializeChars (Json.obj fs)).length + 1) [] h (by omega)
      (by intro c hc; simp at hc)
  rw [List.append_nil] at hP
  rw [hrep]
  show (match parseJson ((serializeChars (Json.obj fs)).length + 1)
      (serializeChars (Json.obj fs)) with
    | some (v, []) => some v
    | _ => none) = some (Json.obj fs)
  rw [hP]

/-- Witness: the safe record with one field "a" mapping to the number 5
round-trips through the trailing-comma serialization and the repair. -/
theorem attemptJsonRepair_roundtrip_witness :
    safeJson (Json.obj [("a", Json.num 5)]) = true ∧
    parseJsonText (attemptJsonRepair (String.mk
      (serializeTrailing [("a", Json.num 5)]))) =
      some (Json.obj [("a", Json.num 5)]) :=
  ⟨by decide, attemptJsonRepair_roundtrip [("a", Json.num 5)] (by decide)⟩

/-- Counterexample to the unrestricted claim: the record with one field "a"
mapping to the two-character string made of a comma and a closing brace does
NOT round-trip — the comma-strip pass of the repair fires inside the string
literal, and the repaired text parses to a different record (the string
shrinks to the single closing brace). -/
theorem attemptJsonRepair_roundtrip_cex :
    parseJsonText (attemptJsonRepair (String.mk
      (serializeTrailing [("a", Json.str (String.mk [',', '}']))]))) =
      some (Json.obj [("a", Json.str (String.mk ['}']))]) ∧
    ¬ parseJsonText (attemptJsonRepair (String.mk
      (serializeTrailing [("a", Json.str (String.mk [',', '}']))]))) =
      some (Json.obj [("a", Json.str (String.mk [',', '}']))]) := by
  refine ⟨rfl, fun hcontra => ?_⟩
  have h2 : firstFieldStrLen (parseJsonText (attemptJsonRepair (String.mk
      (serializeTrailing [("a", Json.str (String.mk [',', '}']))])))) =
      firstFieldStrLen (some (Json.obj
        [("a", Json.str (String.mk [',', '}']))])) :=
    congrArg firstFieldStrLen hcontra
  rw [show firstFieldStrLen (parseJsonText (attemptJsonRepair (String.mk
      (serializeTrailing [("a", Json.str (String.mk [',', '}']))])))) =
      1 from rfl] at h2
  exact absurd h2 (by decide)
